import Mathlib

/-!
A shallow embedding of the `organize` rule engine, translated from the
repository's source: the boolean filter combinators and the dependency-graph
matcher (`organize/filter.py`), the action pipeline (`organize/action.py`) and
the rule executor (`organize/rule.py`).  State that Python mutates in place
(the output sink, the resource, the skip-path set) is threaded explicitly;
Python sets are modelled as lists, queried only through membership.
-/

namespace Organize

/-- Modelled from the spec: the output sink accepts (resource, message, level,
sender) tuples and only records them (`organize/output.py` is not under
`src/`).  We keep the level, message text and sender name; the sink state is
the list of messages reported so far. -/
structure OutMsg where
  level : String
  msg : String
  sender : String
deriving DecidableEq, Repr

/-- The accumulated state of the output sink. -/
abbrev Output := List OutMsg

/-- Appending one message to the sink (`output.msg(...)` call sites). -/
def Output.report (out : Output) (level msg sender : String) : Output :=
  out ++ [⟨level, msg, sender⟩]

/-- Modelled from the spec: a `Resource` is one filesystem entry under
evaluation; `path` is absent only in standalone mode; `walker_skip_pathes`
(source spelling) is the set of paths an action reports as consumed
(`organize/resource.py` is not under `src/`).  The `vars` bag is omitted:
no claim observes it. -/
structure Resource where
  path : Option String
  walker_skip_pathes : List String
deriving DecidableEq, Repr

/-- Outcome of running one filter's `pipeline`: a boolean match, or a raised
exception carrying its message. -/
inductive FilterOutcome where
  | ok (matched : Bool)
  | exn (msg : String)
deriving DecidableEq, Repr

/-- A filter: a named predicate over a resource whose `pipeline` may report to
the output sink and may raise (`Filter` protocol in `filter.py`).  The
capability descriptor (`filter_config`) is not consulted by any claim and is
omitted. -/
structure Filter where
  name : String
  pipeline : Resource → Output → FilterOutcome × Output

/-- The `Not` wrapper (`filter.py`, class `Not`): inverts the wrapped filter's
result; a raised exception propagates unchanged. -/
def NotFilter (f : Filter) : Filter where
  name := "Not(" ++ f.name ++ ")"
  pipeline := fun res out =>
    match f.pipeline res out with
    | (.ok b, out1) => (.ok (!b), out1)
    | (.exn e, out1) => (.exn e, out1)

/-- `All.pipeline` (`filter.py` lines 169-179): conjunction over an ordered
filter list, short-circuiting to `false` on the first non-match; a filter
that raises is reported to the output sink (level `error`, sender the
filter) and yields `false`. -/
def All.pipeline : List Filter → Resource → Output → Bool × Output
  | [], _, out => (true, out)
  | f :: fs, res, out =>
    match f.pipeline res out with
    | (.ok true, out1) => All.pipeline fs res out1
    | (.ok false, out1) => (false, out1)
    | (.exn e, out1) => (false, out1.report "error" e f.name)

/-- Loop of `Any.pipeline` with the `result` latch (`filter.py` lines
186-196): every filter is evaluated; errors are reported and swallowed. -/
def Any.pipelineGo (acc : Bool) : List Filter → Resource → Output → Bool × Output
  | [], _, out => (acc, out)
  | f :: fs, res, out =>
    match f.pipeline res out with
    | (.ok true, out1) => Any.pipelineGo true fs res out1
    | (.ok false, out1) => Any.pipelineGo acc fs res out1
    | (.exn e, out1) => Any.pipelineGo acc fs res (out1.report "error" e f.name)

/-- `Any.pipeline` (`filter.py`): the latch starts at `False`. -/
def Any.pipeline (fs : List Filter) (res : Resource) (out : Output) : Bool × Output :=
  Any.pipelineGo false fs res out

/-- The three filter modes (`FilterMode` literal in `filter.py`). -/
inductive FilterMode where
  | all | any | none
deriving DecidableEq, Repr

/-- `filter_pipeline` (`filter.py` lines 199-214): dispatch on the mode; mode
`none` is `All` over the `Not`-wrapped filters.  The unknown-mode `raise` is
unreachable because the mode type is exactly the three literals. -/
def filter_pipeline (filters : List Filter) (filter_mode : FilterMode)
    (res : Resource) (out : Output) : Bool × Output :=
  match filter_mode with
  | .all => All.pipeline filters res out
  | .any => Any.pipeline filters res out
  | .none => All.pipeline (filters.map NotFilter) res out

/-- The two dependency modes (`DependOnMode` literal in `filter.py`). -/
inductive DependOnMode where
  | and | or
deriving DecidableEq, Repr

/-- `GroupFilter` (`filter.py` lines 53-60).  `depend_on` and
`depend_on_inverted` are Python sets of names; they are modelled as lists and
queried only through membership and (de-duplicated) counting.  Rule
configuration builds them from set/dict literals, so the theorems assume the
names and each `depend_on` list are duplicate-free. -/
structure GroupFilter where
  name : String
  filters : List Filter
  filter_mode : FilterMode
  depend_on : List String
  depend_on_mode : DependOnMode
  depend_on_inverted : List String

/-- `GroupFilter.pipeline` (`filter.py` lines 62-63). -/
def GroupFilter.pipeline (g : GroupFilter) (res : Resource) (out : Output) :
    Bool × Output :=
  filter_pipeline g.filters g.filter_mode res out

/-- The names of the node map's groups, in declaration order (the keys of the
`nodes` dict). -/
def nodeNames (m : List GroupFilter) : List String :=
  m.map GroupFilter.name

/-- Name lookup in the node map (the `nodes` dict; names are unique). -/
def findNode (m : List GroupFilter) (v : String) : Option GroupFilter :=
  m.find? (fun g => g.name == v)

/-- The dependencies of the group named `v` (empty for an unknown name). -/
def depsOf (m : List GroupFilter) (v : String) : List String :=
  match findNode m v with
  | Option.some g => g.depend_on
  | Option.none => []

/-- The parents of `v` in the dependency graph: its `depend_on` entries that
are known group names (`if dep in nodes` in the source). -/
def parentsOf (m : List GroupFilter) (v : String) : List String :=
  (depsOf m v).filter (fun d => (nodeNames m).contains d)

/-- The initial in-degree of `v`: one per known dependency (`in_degree`
construction, `filter.py` lines 72-78 and 112-118). -/
def inDegree0 (m : List GroupFilter) (v : String) : Int :=
  ((parentsOf m v).length : Int)

/-- The children of `u`: the names of the groups whose `depend_on` contains
`u`, in declaration order (the `children` adjacency lists, `filter.py` lines
73-79 and 113-119; only consulted for known `u`). -/
def childrenOf (m : List GroupFilter) (u : String) : List String :=
  (m.filter (fun g => g.depend_on.contains u)).map GroupFilter.name

/-- The dependency edge relation restricted to known names: `u → v` when both
are known groups and `u` appears in `v`'s `depend_on`. -/
def edgeOf (m : List GroupFilter) (u v : String) : Prop :=
  u ∈ nodeNames m ∧ ∃ g ∈ m, g.name = v ∧ u ∈ g.depend_on

instance (m : List GroupFilter) (u v : String) : Decidable (edgeOf m u v) := by
  unfold edgeOf; infer_instance

/-- The dependency graph contains a directed cycle (over edges restricted to
known names): a chain of edges from `v` back to `v`. -/
def HasCycle (m : List GroupFilter) : Prop :=
  ∃ (v : String) (l : List String),
    List.Chain (edgeOf m) v l ∧ edgeOf m (l.getLastD v) v

/-- State of the Kahn peeling loop in `GroupFilter.is_cyclic`: the mutable
in-degree map, the worklist `queue`, and the nodes popped so far (the source
only counts them; the visit order is the natural refinement of
`visited_count`). -/
structure KState where
  in_degree : String → Int
  queue : List String
  visited : List String

/-- The inner loop of `is_cyclic` (`filter.py` lines 88-91): decrement each
child of the popped node, enqueueing children whose in-degree reaches 0. -/
def kahnChildren : List String → (String → Int) → List String →
    ((String → Int) × List String)
  | [], indeg, queue => (indeg, queue)
  | child :: cs, indeg, queue =>
    kahnChildren cs (fun v => if v = child then indeg child - 1 else indeg v)
      (if indeg child - 1 = 0 then queue ++ [child] else queue)

/-- The Kahn while-loop (`filter.py` lines 85-91), with explicit fuel; the
chosen fuel `kahnFuel` is proved sufficient, so the fuel-exhaustion branch
(returning the state unchanged) is unreachable. -/
def kahnLoop (m : List GroupFilter) : Nat → KState → KState
  | _, ⟨indeg, [], visited⟩ => ⟨indeg, [], visited⟩
  | 0, st => st
  | fuel + 1, ⟨indeg, current :: rest, visited⟩ =>
    let step := kahnChildren (childrenOf m current) indeg rest
    kahnLoop m fuel ⟨step.1, step.2, visited ++ [current]⟩

/-- The initial Kahn state (`filter.py` lines 71-83): in-degrees from the
known dependencies, the queue holding every zero-in-degree node in
declaration order, nothing visited. -/
def kahnInit (m : List GroupFilter) : KState :=
  ⟨fun v => inDegree0 m v,
   (nodeNames m).filter (fun v => inDegree0 m v = 0),
   []⟩

/-- Fuel that suffices for the Kahn loop: one unit per pop, bounded by the
initial queue plus the total in-degree. -/
def kahnFuel (m : List GroupFilter) : Nat :=
  (kahnInit m).queue.length + ((nodeNames m).map (fun v => (parentsOf m v).length)).sum

/-- `GroupFilter.is_cyclic` (`filter.py` lines 65-93): run Kahn's algorithm
and report a cycle when not every node was visited. -/
def GroupFilter.is_cyclic (m : List GroupFilter) : Bool :=
  (kahnLoop m (kahnFuel m) (kahnInit m)).visited.length ≠ (nodeNames m).length

/-- The child loop of one matcher round (`filter.py` lines 136-142): for each
child of the node `name` just evaluated with result `matched`, the edge fires
when `matched XOR (name in child.depend_on_inverted)`; a firing edge
decrements the child's in-degree and appends the child to the next frontier
when the child's mode is `or` or its in-degree reached 0.  The unknown-child
branch is unreachable (children are known nodes by construction). -/
def matchChildren (m : List GroupFilter) (name : String) (matched : Bool) :
    List String → (String → Int) → List String → ((String → Int) × List String)
  | [], indeg, next => (indeg, next)
  | child :: cs, indeg, next =>
    match findNode m child with
    | Option.none => matchChildren m name matched cs indeg next
    | Option.some cnode =>
      if xor matched (cnode.depend_on_inverted.contains name) then
        matchChildren m name matched cs
          (fun v => if v = child then indeg child - 1 else indeg v)
          (if cnode.depend_on_mode = DependOnMode.or ∨ indeg child - 1 = 0 then
            next ++ [child]
          else next)
      else matchChildren m name matched cs indeg next

/-- One round's node loop (`filter.py` lines 129-144): evaluate each frontier
node's own pipeline, collect the matched names in `round_matched`, and
propagate along the children.  The unknown-name branch is unreachable
(frontier members are known nodes). -/
def matchRoundGo (m : List GroupFilter) (res : Resource) :
    List String → (String → Int) → List String → List String → Output →
    ((String → Int) × List String × List String × Output)
  | [], indeg, next, rm, out => (indeg, next, rm, out)
  | name :: rest, indeg, next, rm, out =>
    match findNode m name with
    | Option.none => matchRoundGo m res rest indeg next rm out
    | Option.some node =>
      let po := node.pipeline res out
      let rm1 := if po.1 then rm ++ [name] else rm
      let step := matchChildren m name po.1 (childrenOf m name) indeg next
      matchRoundGo m res rest step.1 step.2 rm1 po.2

/-- State of the matcher's layered loop (`filter.py` lines 121-148). -/
structure MState where
  in_degree : String → Int
  current_round : List String
  result : List String
  out : Output

/-- One full round of the matcher: process the frontier, then extend the
result by the round's matched names (`result.extend(round_matched)`, a no-op
when nothing matched) and move to the next frontier. -/
def matchRound (m : List GroupFilter) (res : Resource) (st : MState) : MState :=
  let step := matchRoundGo m res st.current_round st.in_degree [] [] st.out
  ⟨step.1, step.2.1, st.result ++ step.2.2.1, step.2.2.2⟩

/-- The round's matched names alone (the `round_matched` list produced while
processing `st`'s frontier). -/
def roundMatched (m : List GroupFilter) (res : Resource) (st : MState) :
    List String :=
  (matchRoundGo m res st.current_round st.in_degree [] [] st.out).2.2.1

/-- The matcher's while-loop (`filter.py` lines 126-148): it ends exactly
when the frontier is empty.  Fuel-indexed; `none` on fuel exhaustion, which
the termination theorem proves unreachable at the fuel `match` passes
whenever the cycle check has passed. -/
def matchLoop (m : List GroupFilter) (res : Resource) :
    Nat → MState → Option (List String × Output)
  | _, ⟨_, [], result, out⟩ => Option.some (result, out)
  | 0, _ => Option.none
  | fuel + 1, st => matchLoop m res fuel (matchRound m res st)

/-- The matcher's initial state: fresh in-degrees, the zero-in-degree nodes as
the first frontier, empty result (`filter.py` lines 108-123). -/
def matchInit (m : List GroupFilter) (out : Output) : MState :=
  ⟨fun v => inDegree0 m v,
   (nodeNames m).filter (fun v => inDegree0 m v = 0),
   [], out⟩

/-- `GroupFilter.match` (`filter.py` lines 95-150): `none` when the graph is
cyclic, otherwise the layered conditional propagation.  (`match` is a Lean
keyword, hence the name.) -/
def GroupFilter.matchNodes (m : List GroupFilter) (res : Resource)
    (out : Output) : Option (List String × Output) :=
  if GroupFilter.is_cyclic m then Option.none
  else matchLoop m res (m.length + 1) (matchInit m out)

/-- The same loop instrumented to keep the per-round matched lists separate
(the discovery rounds); `matchLoop`'s flat result is their concatenation. -/
def matchLoopRounds (m : List GroupFilter) (res : Resource) :
    Nat → MState → List (List String) → Option (List (List String) × Output)
  | _, ⟨_, [], _, out⟩, acc => Option.some (acc, out)
  | 0, _, _ => Option.none
  | fuel + 1, st, acc =>
    matchLoopRounds m res fuel (matchRound m res st) (acc ++ [roundMatched m res st])

/-- The matcher's result split into its discovery rounds. -/
def GroupFilter.matchRounds (m : List GroupFilter) (res : Resource)
    (out : Output) : Option (List (List String) × Output) :=
  if GroupFilter.is_cyclic m then Option.none
  else matchLoopRounds m res (m.length + 1) (matchInit m out) []

/-- `group_filter_pipeline` (`filter.py` lines 217-231): raise
`ValueError("Cyclic dependency detected in filters.")` on a cyclic graph,
otherwise run the matcher.  An exception carries the message together with
the output state at raise time (the sink is external and keeps what was
already reported).  The inner `none` branch is unreachable: the matcher is
proved to terminate whenever the cycle check has passed. -/
def group_filter_pipeline (filters : List GroupFilter) (res : Resource)
    (out : Output) : Except (String × Output) (List String × Output) :=
  if GroupFilter.is_cyclic filters then
    Except.error ("Cyclic dependency detected in filters.", out)
  else
    match GroupFilter.matchNodes filters res out with
    | Option.some r => Except.ok r
    | Option.none => Except.error ("match loop fuel exhausted", out)

/-- Outcome of one action's `pipeline`: normal return, a raised
`StopIteration` (the early-stop signal), or any other raised exception. -/
inductive ActionOutcome where
  | ok | stop
  | exn (msg : String)
deriving DecidableEq, Repr

/-- An action (`Action` protocol in `action.py`): `pipeline` may mutate the
resource (its `path`, its `walker_skip_pathes`), report to the output sink,
and raise.  The capability descriptor (`action_config`) is not consulted by
any claim and is omitted. -/
structure BaseAction where
  name : String
  pipeline : Resource → Bool → Output → ActionOutcome × Resource × Output

/-- Outcome of `action_pipeline` as observed by its consumer: the generator
was exhausted, it broke on a `StopIteration`, or an action raised some other
exception (recorded with the raising item's name, the consumer's loop
variable `action`). -/
inductive SeqOutcome where
  | completed | stopped
  | failed (msg sender : String)
deriving DecidableEq, Repr

/-- `action_pipeline` (`action.py` lines 45-56), generic over the duck-typed
`pipeline` method like the Python original: run each item's pipeline in
order; a `StopIteration` breaks the loop (not an error); any other exception
ends the sequence as `failed` and is re-raised to the consumer. -/
def action_pipeline {α : Type}
    (pipe : α → Resource → Bool → Output → ActionOutcome × Resource × Output)
    (nameOf : α → String) :
    List α → Resource → Bool → Output → SeqOutcome × Resource × Output
  | [], res, _, out => (.completed, res, out)
  | a :: rest, res, simulate, out =>
    match pipe a res simulate out with
    | (.ok, res1, out1) => action_pipeline pipe nameOf rest res1 simulate out1
    | (.stop, res1, out1) => (.stopped, res1, out1)
    | (.exn e, res1, out1) => (.failed e (nameOf a), res1, out1)

/-- `GroupAction` (`action.py` lines 59-68): a named ordered list of actions. -/
structure GroupAction where
  name : String
  actions : List BaseAction

/-- `GroupAction.pipeline` (`action.py` lines 64-68): drain the inner
`action_pipeline`; an inner `StopIteration` was already consumed there (the
group returns normally), any other inner exception propagates. -/
def GroupAction.pipeline (g : GroupAction) (res : Resource) (simulate : Bool)
    (out : Output) : ActionOutcome × Resource × Output :=
  match action_pipeline BaseAction.pipeline BaseAction.name g.actions res simulate out with
  | (.failed e _, res1, out1) => (.exn e, res1, out1)
  | (.completed, res1, out1) | (.stopped, res1, out1) => (.ok, res1, out1)

/-- A configured filter entry of a rule: a plain filter or a group filter
(`Rule.filters` is a union of the two list shapes). -/
inductive FilterItem where
  | plain (f : Filter)
  | group (g : GroupFilter)

/-- A configured action entry of a rule. -/
inductive ActItem where
  | base (a : BaseAction)
  | group (g : GroupAction)

/-- `ReportSummary` (`organize/utils.py`, not under `src/`).  Modelled from
the spec: the executor returns success and error counts, both defaulting to
zero. -/
structure ReportSummary where
  success : Nat := 0
  errors : Nat := 0
deriving DecidableEq, Repr

/-- `Rule` (`rule.py`), restricted to the fields its `execute` consults.
Locations are opaque; `execute` receives the resources the walker yields for
them as an explicit list (`Rule.walk` drives the external walker). -/
structure Rule where
  enabled : Bool
  locations : List String
  filters : List FilterItem
  filter_mode : FilterMode
  actions : List ActItem

/-- Modelled from the spec: `utils.classify_by_type` (not under `src/`)
splits a heterogeneous list by runtime type, order preserved; the executor
uses it to separate group filters from flat filters. -/
def Rule.group_filters (r : Rule) : List GroupFilter :=
  r.filters.filterMap (fun i =>
    match i with
    | FilterItem.group g => Option.some g
    | FilterItem.plain _ => Option.none)

/-- The flat (non-group) filters of the rule, order preserved. -/
def Rule.flat_filters (r : Rule) : List Filter :=
  r.filters.filterMap (fun i =>
    match i with
    | FilterItem.plain f => Option.some f
    | FilterItem.group _ => Option.none)

/-- The group actions of the rule, order preserved. -/
def Rule.group_actions (r : Rule) : List GroupAction :=
  r.actions.filterMap (fun i =>
    match i with
    | ActItem.group g => Option.some g
    | ActItem.base _ => Option.none)

/-- The flat (non-group) actions of the rule, order preserved. -/
def Rule.flat_actions (r : Rule) : List BaseAction :=
  r.actions.filterMap (fun i =>
    match i with
    | ActItem.base a => Option.some a
    | ActItem.group _ => Option.none)

/-- The executor's per-rule mutable state: the accumulated skip-path set
(modelled as a list, queried through membership), the summary counters, and
the output sink. -/
structure ExecState where
  skip : List String
  summary : ReportSummary
  out : Output
deriving DecidableEq, Repr

/-- The `res.path in skip_pathes` test (`rule.py` line 313); a path-less
resource is never in the path set. -/
def skippedBy (res : Resource) (skip : List String) : Bool :=
  match res.path with
  | Option.some p => skip.contains p
  | Option.none => false

/-- The group-filter branch's action run (`rule.py` lines 325-343): on
success the resource's `walker_skip_pathes` grow the skip set and `success`
is incremented; on a non-`StopIteration` exception the error is reported
(sender: the raising item) and `errors` is incremented, the skip set
untouched.  Returns the new skip set, summary, output and the (possibly
mutated) resource. -/
def runMatchedGroupActions (mga : List GroupAction) (res : Resource)
    (simulate : Bool) (skip : List String) (summary : ReportSummary)
    (out : Output) : List String × ReportSummary × Output × Resource :=
  match action_pipeline GroupAction.pipeline GroupAction.name mga res simulate out with
  | (.failed e s, res1, out1) =>
    (skip, {summary with errors := summary.errors + 1}, out1.report "error" e s, res1)
  | (.completed, res1, out1) | (.stopped, res1, out1) =>
    (skip ++ res1.walker_skip_pathes, {summary with success := summary.success + 1},
      out1, res1)

/-- The flat branch's action run (`rule.py` lines 351-370): same success and
error accounting over the rule's flat actions. -/
def runFlatActions (bas : List BaseAction) (res : Resource) (simulate : Bool)
    (skip : List String) (summary : ReportSummary) (out : Output) :
    List String × ReportSummary × Output × Resource :=
  match action_pipeline BaseAction.pipeline BaseAction.name bas res simulate out with
  | (.failed e s, res1, out1) =>
    (skip, {summary with errors := summary.errors + 1}, out1.report "error" e s, res1)
  | (.completed, res1, out1) | (.stopped, res1, out1) =>
    (skip ++ res1.walker_skip_pathes, {summary with success := summary.success + 1},
      out1, res1)

/-- The body of the executor's resource loop (`rule.py` lines 312-370): skip
already-consumed paths; when group filters exist, run the matcher (a cyclic
graph raises out of `execute`) and the matched group actions; then the flat
filter pipeline and, if it matched and the rule has actions at all
(`self.actions`, the unclassified list), the flat actions.  The resource
object is threaded: mutations made by group actions are visible to the flat
branch. -/
def processStep (rule : Rule) (simulate : Bool) (st : ExecState)
    (res : Resource) : Except (String × Output) ExecState :=
  if skippedBy res st.skip then Except.ok st
  else
    match
      (if rule.group_filters.isEmpty then
        Except.ok (st, res)
      else
        match group_filter_pipeline rule.group_filters res st.out with
        | Except.error e => Except.error e
        | Except.ok (result, out1) =>
          let mga := rule.group_actions.filter (fun a => result.contains a.name)
          let r := runMatchedGroupActions mga res simulate st.skip st.summary out1
          Except.ok (⟨r.1, r.2.1, r.2.2.1⟩, r.2.2.2) :
        Except (String × Output) (ExecState × Resource)) with
    | Except.error e => Except.error e
    | Except.ok (st1, res1) =>
      let fp := filter_pipeline rule.flat_filters rule.filter_mode res1 st1.out
      if fp.1 && !rule.actions.isEmpty then
        let r := runFlatActions rule.flat_actions res1 simulate st1.skip st1.summary fp.2
        Except.ok ⟨r.1, r.2.1, r.2.2.1⟩
      else Except.ok ⟨st1.skip, st1.summary, fp.2⟩

/-- The executor's resource loop (`rule.py` lines 310-371): fold
`processStep` over the walked resources; an uncaught exception aborts the
rule. -/
def executeLoop (rule : Rule) (simulate : Bool) :
    List Resource → ExecState → Except (String × Output) (ReportSummary × Output)
  | [], st => Except.ok (st.summary, st.out)
  | res :: rest, st =>
    match processStep rule simulate st res with
    | Except.error e => Except.error e
    | Except.ok st1 => executeLoop rule simulate rest st1

/-- `Rule.execute` (`rule.py` lines 278-371).  `walked` is the resource
stream `self.walk()` yields (the walker is an external collaborator).  A
disabled rule returns an empty summary; a rule without locations runs the
flat actions once against a path-less resource (standalone mode); otherwise
the per-resource loop runs with an empty skip set. -/
def Rule.execute (rule : Rule) (walked : List Resource) (simulate : Bool)
    (out : Output) : Except (String × Output) (ReportSummary × Output) :=
  if rule.enabled = false then Except.ok ({}, out)
  else if rule.locations = [] then
    let res : Resource := ⟨Option.none, []⟩
    match action_pipeline BaseAction.pipeline BaseAction.name rule.flat_actions
        res simulate out with
    | (.failed e s, _, out1) =>
      Except.ok ({errors := 1}, out1.report "error" e s)
    | (.completed, _, out1) | (.stopped, _, out1) =>
      Except.ok ({success := 1}, out1)
  else
    executeLoop rule simulate walked ⟨[], {}, out⟩

/-- Verification helper: the number of parents of `v` not yet visited.  The
Kahn loop's in-degree entry for a known node always equals this count. -/
def unvisitedCount (m : List GroupFilter) (visited : List String) (v : String) : Nat :=
  ((parentsOf m v).filter (fun u => !visited.contains u)).length

/-- Verification helper: the Kahn loop's termination measure — pending queue
entries plus all unvisited-parent counts. -/
def kahnMeasure (m : List GroupFilter) (st : KState) : Nat :=
  st.queue.length + ((nodeNames m).map (fun v => unvisitedCount m st.visited v)).sum

/-- Verification helper: the Kahn loop's invariant.  Visited and queued nodes
are known and pairwise distinct; the in-degree entry of a known node counts
its unvisited parents; queued nodes have all parents visited; each visited
node's parents were visited strictly before it; a known node whose in-degree
entry is zero has been seen (visited or queued). -/
structure KInv (m : List GroupFilter) (st : KState) : Prop where
  sub : ∀ v ∈ st.visited ++ st.queue, v ∈ nodeNames m
  nodup : (st.visited ++ st.queue).Nodup
  indeg : ∀ v ∈ nodeNames m, st.in_degree v = (unvisitedCount m st.visited v : Int)
  qz : ∀ v ∈ st.queue, ∀ u ∈ parentsOf m v, u ∈ st.visited
  topo : ∀ i (h : i < st.visited.length),
    ∀ u ∈ parentsOf m (st.visited.get ⟨i, h⟩), u ∈ st.visited.take i
  zero : ∀ v ∈ nodeNames m, st.in_degree v = 0 → v ∈ st.visited ∨ v ∈ st.queue

/-!  ## Theorems  -/

/-- Evaluating a prefix of an `all` chain to `true` leaves the rest of the
chain to run from the threaded output state. -/
theorem All_append_true (fs1 : List Filter) (gs : List Filter) (res : Resource)
    (out out1 : Output) (h1 : All.pipeline fs1 res out = (true, out1)) :
    All.pipeline (fs1 ++ gs) res out = All.pipeline gs res out1 := by
  induction fs1 generalizing out with
  | nil =>
    simp only [All.pipeline] at h1
    cases h1
    rfl
  | cons f fs ih =>
    simp only [All.pipeline] at h1 ⊢
    rcases hf : f.pipeline res out with ⟨o, out2⟩
    rw [hf] at h1
    match o with
    | .ok true => exact ih out2 h1
    | .ok false => simp at h1
    | .exn e => simp at h1

/-- C2: for the worked five-group example `A(deps=[])`, `B(deps=[A])`,
`C(deps=[A])`, `D(deps=[B,C], mode=and)`, `E(deps=[B])` with pipelines
A=true, B=true, C=false (an empty `any` group), D arbitrary, E=true, the
matcher returns exactly `[A, B, E]`; the result and the untouched output are
independent of D's filters and filter mode, so D's pipeline is never
evaluated (C's non-match blocks the `and`-mode edge into D). -/
theorem C2_worked_example (res : Resource) (out : Output) (dfs : List Filter)
    (dfm : FilterMode) :
    GroupFilter.matchNodes
      [⟨"A", [], .all, [], .and, []⟩,
       ⟨"B", [], .all, ["A"], .and, []⟩,
       ⟨"C", [], .any, ["A"], .and, []⟩,
       ⟨"D", dfs, dfm, ["B", "C"], .and, []⟩,
       ⟨"E", [], .all, ["B"], .and, []⟩] res out
      = Option.some (["A", "B", "E"], out) := rfl

/-- C7: in an `all`-mode filter list, once the filters before `f` have all
matched (threading the output to `out1`), a raising `f` reports the error to
the output sink and the whole pipeline returns `false`, and a non-matching
`f` returns `false`; in both cases the filters after `f` are never invoked
(the result does not depend on `fs2`), and the combinator returns a value
rather than propagating the exception. -/
theorem C7_all_short_circuit (fs1 fs2 : List Filter) (f : Filter)
    (res : Resource) (out out1 : Output)
    (h1 : All.pipeline fs1 res out = (true, out1)) :
    (∀ e out2, f.pipeline res out1 = (.exn e, out2) →
      filter_pipeline (fs1 ++ f :: fs2) .all res out
        = (false, out2.report "error" e f.name)) ∧
    (∀ out2, f.pipeline res out1 = (.ok false, out2) →
      filter_pipeline (fs1 ++ f :: fs2) .all res out = (false, out2)) := by
  constructor
  · intro e out2 hf
    show All.pipeline (fs1 ++ f :: fs2) res out = _
    rw [All_append_true fs1 (f :: fs2) res out out1 h1]
    simp [All.pipeline, hf]
  · intro out2 hf
    show All.pipeline (fs1 ++ f :: fs2) res out = _
    rw [All_append_true fs1 (f :: fs2) res out out1 h1]
    simp [All.pipeline, hf]

/-- Witness for C7 at a concrete input: a raising filter ahead of a sibling
that would match; the error is reported and the sibling never runs. -/
theorem C7_witness :
    filter_pipeline
      [⟨"boomf", fun _ o => (.exn "boom", o)⟩,
       ⟨"later", fun _ o => (.ok true, o)⟩] .all
      ⟨Option.some "r", []⟩ []
      = (false, [⟨"error", "boom", "boomf"⟩]) :=
  (C7_all_short_circuit [] [⟨"later", fun _ o => (.ok true, o)⟩]
      ⟨"boomf", fun _ o => (.exn "boom", o)⟩ ⟨Option.some "r", []⟩ [] [] rfl).1
    "boom" [] rfl

/-- A fully-run prefix of an action sequence hands the threaded resource and
output to the rest of the sequence. -/
theorem action_pipeline_append_completed {α : Type}
    (pipe : α → Resource → Bool → Output → ActionOutcome × Resource × Output)
    (nameOf : α → String) (as1 rest : List α) (res res1 : Resource)
    (sim : Bool) (out out1 : Output)
    (h : action_pipeline pipe nameOf as1 res sim out = (.completed, res1, out1)) :
    action_pipeline pipe nameOf (as1 ++ rest) res sim out
      = action_pipeline pipe nameOf rest res1 sim out1 := by
  induction as1 generalizing res out with
  | nil =>
    simp only [action_pipeline] at h
    cases h
    rfl
  | cons a as ih =>
    simp only [action_pipeline] at h ⊢
    rcases ha : pipe a res sim out with ⟨o, res2, out2⟩
    rw [ha] at h
    match o with
    | .ok => exact ih res2 out2 h
    | .stop => simp at h
    | .exn e => simp at h

/-- C9: a `StopIteration` (`.stop`) raised inside a `GroupAction` ends only
that group's sequence: with the actions before `sact` completed and `sact`
raising the stop signal, (1) the group's own pipeline returns normally,
independent of the actions `as2` after `sact`; (2) sibling group actions
after the group in the outer pipeline still run; (3) if the remaining
siblings complete, the group-action branch counts the resource as one
success (the signal never reaches the executor as an error). -/
theorem C9_stop_scoped (as1 as2 : List BaseAction) (sact : BaseAction)
    (gname : String) (gs : List GroupAction) (res res1 res2 : Resource)
    (sim : Bool) (out out1 out2 : Output)
    (h1 : action_pipeline BaseAction.pipeline BaseAction.name as1 res sim out
      = (.completed, res1, out1))
    (h2 : sact.pipeline res1 sim out1 = (.stop, res2, out2)) :
    (GroupAction.pipeline ⟨gname, as1 ++ sact :: as2⟩ res sim out
      = (.ok, res2, out2)) ∧
    (action_pipeline GroupAction.pipeline GroupAction.name
        (⟨gname, as1 ++ sact :: as2⟩ :: gs) res sim out
      = action_pipeline GroupAction.pipeline GroupAction.name gs res2 sim out2) ∧
    (∀ res3 out3 skip summary,
      action_pipeline GroupAction.pipeline GroupAction.name gs res2 sim out2
        = (.completed, res3, out3) →
      runMatchedGroupActions (⟨gname, as1 ++ sact :: as2⟩ :: gs) res sim
          skip summary out
        = (skip ++ res3.walker_skip_pathes,
           {summary with success := summary.success + 1}, out3, res3)) := by
  have hg : GroupAction.pipeline ⟨gname, as1 ++ sact :: as2⟩ res sim out
      = (.ok, res2, out2) := by
    unfold GroupAction.pipeline
    rw [action_pipeline_append_completed BaseAction.pipeline BaseAction.name
      as1 (sact :: as2) res res1 sim out out1 h1]
    simp only [action_pipeline, h2]
  have houter : action_pipeline GroupAction.pipeline GroupAction.name
      (⟨gname, as1 ++ sact :: as2⟩ :: gs) res sim out
      = action_pipeline GroupAction.pipeline GroupAction.name gs res2 sim out2 := by
    simp only [action_pipeline, hg]
  refine ⟨hg, houter, ?_⟩
  intro res3 out3 skip summary h3
  unfold runMatchedGroupActions
  rw [houter, h3]

/-- Witness for C9 at a concrete input: a group whose second action stops
(skipping its third), followed by a sibling group that still runs; the branch
reports one success. -/
theorem C9_witness :
    runMatchedGroupActions
      [⟨"G1", [⟨"first", fun r _ o => (.ok, r, o)⟩,
               ⟨"stopper", fun r _ o => (.stop, r, o)⟩,
               ⟨"after", fun r _ o => (.exn "never", r, o)⟩]⟩,
       ⟨"G2", [⟨"sib", fun r _ o => (.ok, r, o)⟩]⟩]
      ⟨Option.some "r", []⟩ true [] {} []
      = ([], {success := 1}, [], ⟨Option.some "r", []⟩) :=
  (C9_stop_scoped [⟨"first", fun r _ o => (.ok, r, o)⟩]
      [⟨"after", fun r _ o => (.exn "never", r, o)⟩]
      ⟨"stopper", fun r _ o => (.stop, r, o)⟩ "G1"
      [⟨"G2", [⟨"sib", fun r _ o => (.ok, r, o)⟩]⟩]
      ⟨Option.some "r", []⟩ ⟨Option.some "r", []⟩ ⟨Option.some "r", []⟩
      true [] [] [] rfl rfl).2.2
    ⟨Option.some "r", []⟩ [] [] {} rfl

/-- The group-action branch either succeeds (one `success`, skip set grown by
the resource's paths) or fails (one `errors`, skip set untouched). -/
theorem runMatched_spec (mga : List GroupAction) (res : Resource) (sim : Bool)
    (skip : List String) (sm : ReportSummary) (out : Output) :
    (∃ l o1 r1, runMatchedGroupActions mga res sim skip sm out
      = (skip ++ l, ⟨sm.success + 1, sm.errors⟩, o1, r1)) ∨
    (∃ o1 r1, runMatchedGroupActions mga res sim skip sm out
      = (skip, ⟨sm.success, sm.errors + 1⟩, o1, r1)) := by
  unfold runMatchedGroupActions
  rcases ha : action_pipeline GroupAction.pipeline GroupAction.name mga res sim out
    with ⟨oc, r1, o1⟩
  match oc with
  | .completed => exact Or.inl ⟨r1.walker_skip_pathes, o1, r1, rfl⟩
  | .stopped => exact Or.inl ⟨r1.walker_skip_pathes, o1, r1, rfl⟩
  | .failed e s => exact Or.inr ⟨o1.report "error" e s, r1, rfl⟩

/-- The flat-action branch either succeeds (one `success`, skip set grown) or
fails (one `errors`, skip set untouched). -/
theorem runFlat_spec (bas : List BaseAction) (res : Resource) (sim : Bool)
    (skip : List String) (sm : ReportSummary) (out : Output) :
    (∃ l o1 r1, runFlatActions bas res sim skip sm out
      = (skip ++ l, ⟨sm.success + 1, sm.errors⟩, o1, r1)) ∨
    (∃ o1 r1, runFlatActions bas res sim skip sm out
      = (skip, ⟨sm.success, sm.errors + 1⟩, o1, r1)) := by
  unfold runFlatActions
  rcases ha : action_pipeline BaseAction.pipeline BaseAction.name bas res sim out
    with ⟨oc, r1, o1⟩
  match oc with
  | .completed => exact Or.inl ⟨r1.walker_skip_pathes, o1, r1, rfl⟩
  | .stopped => exact Or.inl ⟨r1.walker_skip_pathes, o1, r1, rfl⟩
  | .failed e s => exact Or.inr ⟨o1.report "error" e s, r1, rfl⟩

/-- Master accounting lemma for one resource's pass through `processStep`:
counters only grow, they grow together by at most two (at most one per
branch), the skip set only grows, and it grows only on a branch that
incremented `success`. -/
theorem processStep_spec (rule : Rule) (simulate : Bool) (st : ExecState)
    (res : Resource) (st1 : ExecState)
    (h : processStep rule simulate st res = Except.ok st1) :
    st.summary.success ≤ st1.summary.success ∧
    st.summary.errors ≤ st1.summary.errors ∧
    st1.summary.success + st1.summary.errors
      ≤ st.summary.success + st.summary.errors + 2 ∧
    (∃ l, st1.skip = st.skip ++ l) ∧
    (st1.summary.success = st.summary.success → st1.skip = st.skip) := by
  unfold processStep at h
  by_cases hskip : skippedBy res st.skip
  · rw [if_pos hskip] at h
    cases h
    exact ⟨le_refl _, le_refl _, by omega, ⟨[], by simp⟩, fun _ => rfl⟩
  · rw [if_neg hskip] at h
    -- stage 1: the group-filter branch, producing (st1', res1')
    have stage1 : ∃ st2 res2,
        (if rule.group_filters.isEmpty then
          Except.ok (st, res)
        else
          match group_filter_pipeline rule.group_filters res st.out with
          | Except.error e => Except.error e
          | Except.ok (result, out1) =>
            let mga := rule.group_actions.filter (fun a => result.contains a.name)
            let r := runMatchedGroupActions mga res simulate st.skip st.summary out1
            Except.ok (⟨r.1, r.2.1, r.2.2.1⟩, r.2.2.2) :
          Except (String × Output) (ExecState × Resource))
          = Except.ok (st2, res2) ∧
        st.summary.success ≤ st2.summary.success ∧
        st.summary.errors ≤ st2.summary.errors ∧
        st2.summary.success + st2.summary.errors
          ≤ st.summary.success + st.summary.errors + 1 ∧
        (∃ l, st2.skip = st.skip ++ l) ∧
        (st2.summary.success = st.summary.success → st2.skip = st.skip) := by
      by_cases hemp : rule.group_filters.isEmpty
      · refine ⟨st, res, ?_⟩
        rw [if_pos hemp]
        exact ⟨rfl, le_refl _, le_refl _, by omega, ⟨[], by simp⟩, fun _ => rfl⟩
      · rw [if_neg hemp] at h ⊢
        rcases hgf : group_filter_pipeline rule.group_filters res st.out with e | ⟨result, out1⟩
        · rw [hgf] at h
          simp at h
        · dsimp only at h ⊢
          rcases runMatched_spec
              (rule.group_actions.filter (fun a => result.contains a.name))
              res simulate st.skip st.summary out1 with
            ⟨l, o1, r1, hr⟩ | ⟨o1, r1, hr⟩
          · exact ⟨⟨st.skip ++ l, ⟨st.summary.success + 1, st.summary.errors⟩, o1⟩, r1,
              by rw [hr], by simp, by simp, by simp; omega,
              ⟨l, rfl⟩, by intro hs; simp at hs⟩
          · exact ⟨⟨st.skip, ⟨st.summary.success, st.summary.errors + 1⟩, o1⟩, r1,
              by rw [hr], by simp, by simp, by simp; omega,
              ⟨[], by simp⟩, fun _ => rfl⟩
    rcases stage1 with ⟨st2, res2, heq, hs2, he2, hb2, ⟨l2, hl2⟩, hz2⟩
    rw [heq] at h
    dsimp only at h
    -- stage 2: the flat branch
    rcases hfp : filter_pipeline rule.flat_filters rule.filter_mode res2 st2.out
      with ⟨b, out2⟩
    rw [hfp] at h
    dsimp only at h
    by_cases hcond : (b && !rule.actions.isEmpty) = true
    · rw [if_pos hcond] at h
      rcases runFlat_spec rule.flat_actions res2 simulate st2.skip st2.summary out2 with
        ⟨l, o1, r1, hr⟩ | ⟨o1, r1, hr⟩
      · rw [hr] at h
        cases h
        refine ⟨by simp; omega, by simp; omega, by simp; omega,
          ⟨l2 ++ l, by simp [hl2]⟩, ?_⟩
        intro hs; simp at hs
        exfalso; omega
      · rw [hr] at h
        cases h
        refine ⟨by simp; omega, by simp; omega, by simp; omega,
          ⟨l2, by simp [hl2]⟩, ?_⟩
        intro hs; simp at hs
        simpa using hz2 hs
    · rw [if_neg hcond] at h
      cases h
      refine ⟨by simpa using hs2, by simpa using he2, by simp; omega,
        ⟨l2, by simpa using hl2⟩, ?_⟩
      intro hs; simp at hs ⊢
      exact hz2 hs

/-- C10 fails on the code: for the rule below, resource `r1`'s group-action
run raises the non-`StopIteration` exception `boom` after an earlier action
recorded the path `P` (one error is counted), yet `P` still enters the skip
set — the trivially succeeding flat branch merges the resource's accumulated
`walker_skip_pathes` — and the subsequent resource with path `P` is
suppressed (the run ends with one success and one error instead of
processing `P`). -/
theorem C10_counterexample :
    processStep
        ⟨true, ["L"], [.group ⟨"G", [], .all, [], .and, []⟩], .all,
         [.group ⟨"G",
           [⟨"addP", fun r _ o =>
              (.ok, {r with walker_skip_pathes := r.walker_skip_pathes ++ ["P"]}, o)⟩,
            ⟨"boom", fun r _ o => (.exn "boom", r, o)⟩]⟩]⟩
        true ⟨[], {}, []⟩ ⟨Option.some "r1", []⟩
      = Except.ok ⟨["P"], {success := 1, errors := 1}, [⟨"error", "boom", "G"⟩]⟩ ∧
    Rule.execute
        ⟨true, ["L"], [.group ⟨"G", [], .all, [], .and, []⟩], .all,
         [.group ⟨"G",
           [⟨"addP", fun r _ o =>
              (.ok, {r with walker_skip_pathes := r.walker_skip_pathes ++ ["P"]}, o)⟩,
            ⟨"boom", fun r _ o => (.exn "boom", r, o)⟩]⟩]⟩
        [⟨Option.some "r1", []⟩, ⟨Option.some "P", []⟩] true []
      = Except.ok ({success := 1, errors := 1}, [⟨"error", "boom", "G"⟩]) :=
  ⟨rfl, rfl⟩

/-- C10 (amended): the resource's `walker_skip_pathes` are merged into the
skip set only on the success path of each branch — a failing group-action
run or flat-action run leaves the skip set unchanged — and a resource for
which no branch succeeds leaves the skip set unchanged; however, paths
recorded during a failing group-action run are still merged when the same
resource's flat branch subsequently succeeds. -/
theorem C10_skip_only_on_success :
    (∀ mga res sim skip sm out e s res1 out1,
      action_pipeline GroupAction.pipeline GroupAction.name mga res sim out
        = (.failed e s, res1, out1) →
      (runMatchedGroupActions mga res sim skip sm out).1 = skip) ∧
    (∀ bas res sim skip sm out e s res1 out1,
      action_pipeline BaseAction.pipeline BaseAction.name bas res sim out
        = (.failed e s, res1, out1) →
      (runFlatActions bas res sim skip sm out).1 = skip) ∧
    (∀ rule sim st res st1, processStep rule sim st res = Except.ok st1 →
      st1.summary.success = st.summary.success → st1.skip = st.skip) := by
  refine ⟨?_, ?_, ?_⟩
  · intro mga res sim skip sm out e s res1 out1 h
    unfold runMatchedGroupActions
    rw [h]
  · intro bas res sim skip sm out e s res1 out1 h
    unfold runFlatActions
    rw [h]
  · intro rule sim st res st1 h
    exact (processStep_spec rule sim st res st1 h).2.2.2.2

/-- Witness for the amended C10 at a concrete input: a group whose only
action raises leaves the skip set empty. -/
theorem C10_witness :
    (runMatchedGroupActions
        [⟨"G", [⟨"boom", fun r _ o => (.exn "boom", r, o)⟩]⟩]
        ⟨Option.some "r", []⟩ true [] {} []).1 = [] :=
  C10_skip_only_on_success.1
    [⟨"G", [⟨"boom", fun r _ o => (.exn "boom", r, o)⟩]⟩]
    ⟨Option.some "r", []⟩ true [] {} [] "boom" "G" ⟨Option.some "r", []⟩ [] rfl

/-- The loop's counters grow by at most two per walked resource. -/
theorem executeLoop_bound (rule : Rule) (sim : Bool) :
    ∀ (rs : List Resource) (st : ExecState) (s : ReportSummary) (o : Output),
      executeLoop rule sim rs st = Except.ok (s, o) →
      s.success + s.errors
        ≤ st.summary.success + st.summary.errors + 2 * rs.length := by
  intro rs
  induction rs with
  | nil =>
    intro st s o h
    simp only [executeLoop] at h
    cases h
    omega
  | cons r rest ih =>
    intro st s o h
    simp only [executeLoop] at h
    cases hps : processStep rule sim st r with
    | error e => rw [hps] at h; simp at h
    | ok st1 =>
      rw [hps] at h
      have hb := (processStep_spec rule sim st r st1 hps).2.2.1
      have := ih st1 s o h
      simp only [List.length_cons]
      omega

/-- C6 fails on the code: a rule configured with a group filter and a flat
action list counts the single walked resource twice — the group branch
succeeds vacuously (no matched group action) and the flat branch, whose
empty flat filter list matches, succeeds as well — so `success = 2` for one
resource. -/
theorem C6_counterexample :
    Rule.execute
        ⟨true, ["L"], [.group ⟨"G", [], .any, [], .and, []⟩], .all,
         [.base ⟨"noop", fun r _ o => (.ok, r, o)⟩]⟩
        [⟨Option.some "r1", []⟩] true []
      = Except.ok ({success := 2}, []) := rfl

/-- C6 (amended): the summary's `success` and `errors` counters are together
incremented at most twice per discovered resource — at most once by the
group-filter branch and at most once by the flat branch — and never once per
individual action (the bound is independent of the length of any action
list); consequently a normal-mode execution returns at most `2 × (number of
walked resources)` increments in total. -/
theorem C6_at_most_two_per_resource :
    (∀ rule sim st res st1, processStep rule sim st res = Except.ok st1 →
      st1.summary.success + st1.summary.errors
        ≤ st.summary.success + st.summary.errors + 2) ∧
    (∀ rule walked sim out s o,
      Rule.execute rule walked sim out = Except.ok (s, o) →
      rule.locations ≠ [] →
      s.success + s.errors ≤ 2 * walked.length) := by
  constructor
  · intro rule sim st res st1 h
    exact (processStep_spec rule sim st res st1 h).2.2.1
  · intro rule walked sim out s o h hloc
    unfold Rule.execute at h
    by_cases hen : rule.enabled = false
    · rw [if_pos hen] at h
      cases h
      simp
    · rw [if_neg hen, if_neg hloc] at h
      have := executeLoop_bound rule sim walked ⟨[], {}, out⟩ s o h
      simpa using this

/-- Witness for the amended C6 at the double-counting input itself: the
whole-run bound holds with `success + errors = 2 = 2 × 1`. -/
theorem C6_witness :
    ({success := 2} : ReportSummary).success
      + ({success := 2} : ReportSummary).errors ≤ 2 * 1 :=
  C6_at_most_two_per_resource.2
    ⟨true, ["L"], [.group ⟨"G", [], .any, [], .and, []⟩], .all,
     [.base ⟨"noop", fun r _ o => (.ok, r, o)⟩]⟩
    [⟨Option.some "r1", []⟩] true [] {success := 2} [] rfl (by simp)

/-- A resource skipped under a smaller path set is skipped under a larger
one. -/
theorem skippedBy_mono (res : Resource) (S T : List String)
    (hST : ∀ x ∈ S, x ∈ T) (h : skippedBy res S = true) :
    skippedBy res T = true := by
  unfold skippedBy at h ⊢
  cases hp : res.path with
  | none => rw [hp] at h; simp at h
  | some p =>
    rw [hp] at h
    simp only [List.elem_eq_mem, decide_eq_true_eq] at h ⊢
    exact hST p h

/-- C8: (1) a resource whose path is in the accumulated skip set is never
evaluated — `processStep` returns the state unchanged: no filter runs, no
action runs, nothing is reported, no counter moves; (2) the skip set only
grows, so a path once added stays for the rest of the scan; (3) therefore
resources whose paths lie in (any subset of) the current skip set can be
deleted from the remaining walk without changing the execution at all. -/
theorem C8_skip_set (rule : Rule) (sim : Bool) :
    (∀ st res p, res.path = Option.some p → p ∈ st.skip →
      processStep rule sim st res = Except.ok st) ∧
    (∀ st res st1, processStep rule sim st res = Except.ok st1 →
      ∀ x ∈ st.skip, x ∈ st1.skip) ∧
    (∀ (S : List String) rs st, (∀ x ∈ S, x ∈ st.skip) →
      executeLoop rule sim rs st
        = executeLoop rule sim (rs.filter (fun r => !(skippedBy r S))) st) := by
  have part1 : ∀ (st : ExecState) (res : Resource),
      skippedBy res st.skip = true → processStep rule sim st res = Except.ok st := by
    intro st res hsk
    unfold processStep
    rw [if_pos hsk]
  refine ⟨?_, ?_, ?_⟩
  · intro st res p hp hmem
    apply part1
    unfold skippedBy
    rw [hp]
    simpa using hmem
  · intro st res st1 h x hx
    rcases (processStep_spec rule sim st res st1 h).2.2.2.1 with ⟨l, hl⟩
    rw [hl]
    exact List.mem_append_left _ hx
  · intro S rs
    induction rs with
    | nil => intro st hS; rfl
    | cons r rest ih =>
      intro st hS
      rw [List.filter_cons]
      by_cases hSk : skippedBy r S = true
      · rw [hSk]
        simp only [Bool.not_true, if_neg (by simp : ¬(false = true))]
        have hstep := part1 st r (skippedBy_mono r S st.skip hS hSk)
        simp only [executeLoop, hstep]
        exact ih st hS
      · rw [Bool.not_eq_true] at hSk
        rw [hSk]
        simp only [Bool.not_false, if_pos rfl]
        simp only [executeLoop]
        cases hps : processStep rule sim st r with
        | error e => rfl
        | ok st1 =>
          apply ih st1
          intro x hx
          rcases (processStep_spec rule sim st r st1 hps).2.2.2.1 with ⟨l, hl⟩
          rw [hl]
          exact List.mem_append_left _ (hS x hx)

/-- Witness for C8 at a concrete input: a resource whose path `P` is already
in the skip set passes through `processStep` unobserved. -/
theorem C8_witness :
    processStep
        ⟨true, ["L"], [], .all, [.base ⟨"noop", fun r _ o => (.ok, r, o)⟩]⟩
        true ⟨["P"], {}, []⟩ ⟨Option.some "P", []⟩
      = Except.ok ⟨["P"], {}, []⟩ :=
  (C8_skip_set
      ⟨true, ["L"], [], .all, [.base ⟨"noop", fun r _ o => (.ok, r, o)⟩]⟩
      true).1
    ⟨["P"], {}, []⟩ ⟨Option.some "P", []⟩ "P" rfl (by simp)

/-- An empty frontier returns the accumulated result, whatever the fuel. -/
theorem matchLoop_empty (m : List GroupFilter) (res : Resource) (fuel : Nat)
    (indeg : String → Int) (result : List String) (out : Output) :
    matchLoop m res fuel ⟨indeg, [], result, out⟩ = Option.some (result, out) := by
  cases fuel <;> rfl

/-- A non-empty frontier always takes one more round. -/
theorem matchLoop_step (m : List GroupFilter) (res : Resource) (fuel : Nat)
    (st : MState) (h : st.current_round ≠ []) :
    matchLoop m res (fuel + 1) st = matchLoop m res fuel (matchRound m res st) := by
  rcases st with ⟨indeg, cr, result, out⟩
  cases cr with
  | nil => exact absurd rfl h
  | cons a t => rfl

/-- The matcher's result only ever extends the accumulated list. -/
theorem matchLoop_result_extends (m : List GroupFilter) (res : Resource) :
    ∀ (fuel : Nat) (st : MState) (l : List String) (o : Output),
      matchLoop m res fuel st = Option.some (l, o) → ∃ t, l = st.result ++ t := by
  intro fuel
  induction fuel with
  | zero =>
    intro st l o h
    rcases st with ⟨indeg, cr, result, out⟩
    cases cr with
    | nil =>
      rw [matchLoop_empty] at h
      cases h
      exact ⟨[], by simp⟩
    | cons a t => simp [matchLoop] at h
  | succ fuel ih =>
    intro st l o h
    rcases hcr : st.current_round with _ | ⟨a, t⟩
    · rcases st with ⟨indeg, cr, result, out⟩
      simp only at hcr
      subst hcr
      rw [matchLoop_empty] at h
      cases h
      exact ⟨[], by simp⟩
    · rw [matchLoop_step m res fuel st (by rw [hcr]; simp)] at h
      rcases ih (matchRound m res st) l o h with ⟨t1, ht1⟩
      exact ⟨roundMatched m res st ++ t1, by simpa [matchRound, roundMatched] using ht1⟩

/-- C3: the layered loop ends only on an empty frontier, never merely on a
round with no matches: (1) from any non-empty frontier the loop takes the
next round unconditionally — in particular also when that round's
`round_matched` is empty but a propagating edge (for example an inverted
edge out of a non-matching group) filled the next frontier; (2) any frontier
group whose pipeline matches in its round is appended to the final result;
(3) concretely, with `A` non-matching and `B` depending on `not A`, round 1
matches nothing yet the loop continues and returns `[B]`. -/
theorem C3_only_empty_frontier_stops (m : List GroupFilter) (res : Resource) :
    (∀ st fuel, st.current_round ≠ [] →
      matchLoop m res (fuel + 1) st = matchLoop m res fuel (matchRound m res st)) ∧
    (∀ st fuel l o c, c ∈ roundMatched m res st →
      matchLoop m res fuel st = Option.some (l, o) → c ∈ l) ∧
    (∀ res0 out0, GroupFilter.matchNodes
        [⟨"A", [], .any, [], .and, []⟩,
         ⟨"B", [], .all, ["A"], .and, ["A"]⟩] res0 out0
      = Option.some (["B"], out0)) := by
  refine ⟨fun st fuel h => matchLoop_step m res fuel st h, ?_, fun res0 out0 => rfl⟩
  intro st fuel l o c hc h
  rcases hcr : st.current_round with _ | ⟨a, t⟩
  · rcases st with ⟨indeg, cr, result, out⟩
    simp only at hcr
    subst hcr
    simp [roundMatched, matchRoundGo] at hc
  · cases fuel with
    | zero =>
      rcases st with ⟨indeg, cr, result, out⟩
      simp only at hcr
      subst hcr
      simp [matchLoop] at h
    | succ fuel =>
      rw [matchLoop_step m res fuel st (by rw [hcr]; simp)] at h
      rcases matchLoop_result_extends m res fuel (matchRound m res st) l o h with ⟨t1, ht1⟩
      rw [ht1]
      have : c ∈ (matchRound m res st).result := by
        simp only [matchRound, roundMatched] at hc ⊢
        exact List.mem_append_right _ hc
      exact List.mem_append_left _ this

/-- Witness for C3 at a concrete input: the two-group inverted-edge graph, in
its initial state, takes the second round although the first matched
nothing. -/
theorem C3_witness :
    matchLoop
        [⟨"A", [], .any, [], .and, []⟩, ⟨"B", [], .all, ["A"], .and, ["A"]⟩]
        ⟨Option.some "r", []⟩ 3
        (matchInit [⟨"A", [], .any, [], .and, []⟩,
                    ⟨"B", [], .all, ["A"], .and, ["A"]⟩] [])
      = matchLoop
        [⟨"A", [], .any, [], .and, []⟩, ⟨"B", [], .all, ["A"], .and, ["A"]⟩]
        ⟨Option.some "r", []⟩ 2
        (matchRound [⟨"A", [], .any, [], .and, []⟩,
                     ⟨"B", [], .all, ["A"], .and, ["A"]⟩] ⟨Option.some "r", []⟩
          (matchInit [⟨"A", [], .any, [], .and, []⟩,
                      ⟨"B", [], .all, ["A"], .and, ["A"]⟩] [])) :=
  (C3_only_empty_frontier_stops
      [⟨"A", [], .any, [], .and, []⟩, ⟨"B", [], .all, ["A"], .and, ["A"]⟩]
      ⟨Option.some "r", []⟩).1
    (matchInit [⟨"A", [], .any, [], .and, []⟩,
                ⟨"B", [], .all, ["A"], .and, ["A"]⟩] []) 2
    (by decide)

/-- A successful name lookup returns a member with that name. -/
theorem findNode_some (m : List GroupFilter) (v : String) (g : GroupFilter)
    (h : findNode m v = Option.some g) : g ∈ m ∧ g.name = v := by
  unfold findNode at h
  refine ⟨List.mem_of_find?_eq_some h, ?_⟩
  have h1 := List.find?_some h
  simpa using h1

/-- Under duplicate-free names, looking up a member's name finds it. -/
theorem findNode_eq (m : List GroupFilter) (hn : (nodeNames m).Nodup)
    (g : GroupFilter) (hg : g ∈ m) : findNode m g.name = Option.some g := by
  induction m with
  | nil => simp at hg
  | cons a t ih =>
    rcases List.mem_cons.mp hg with rfl | hgt
    · unfold findNode
      simp [List.find?]
    · have hne : a.name ≠ g.name := by
        intro he
        have : g.name ∈ nodeNames t := List.mem_map_of_mem GroupFilter.name hgt
        rw [← he] at this
        exact (List.nodup_cons.mp (by simpa [nodeNames] using hn)).1 this
      have ht : (nodeNames t).Nodup := (List.nodup_cons.mp (by simpa [nodeNames] using hn)).2
      unfold findNode at ih ⊢
      simp only [List.find?]
      rw [show (a.name == g.name) = false by simpa using hne]
      exact ih ht hgt

/-- Children are known nodes. -/
theorem childrenOf_sub (m : List GroupFilter) (u v : String)
    (h : v ∈ childrenOf m u) : v ∈ nodeNames m := by
  unfold childrenOf at h
  rcases List.mem_map.mp h with ⟨g, hg, rfl⟩
  exact List.mem_map_of_mem GroupFilter.name (List.mem_of_mem_filter hg)

/-- Under duplicate-free names, each children list is duplicate-free. -/
theorem childrenOf_nodup (m : List GroupFilter) (hn : (nodeNames m).Nodup)
    (u : String) : (childrenOf m u).Nodup := by
  have hsub : List.Sublist (childrenOf m u) (nodeNames m) :=
    (List.filter_sublist m).map GroupFilter.name
  exact hn.sublist hsub

/-- Parents are known nodes. -/
theorem parentsOf_sub (m : List GroupFilter) (u v : String)
    (h : u ∈ parentsOf m v) : u ∈ nodeNames m := by
  unfold parentsOf at h
  have := List.of_mem_filter h
  simpa [List.elem_eq_mem] using this

/-- Under duplicate-free dependency sets, each parent list is
duplicate-free. -/
theorem parentsOf_nodup (m : List GroupFilter)
    (hd : ∀ g ∈ m, g.depend_on.Nodup) (v : String) :
    (parentsOf m v).Nodup := by
  unfold parentsOf depsOf
  cases hf : findNode m v with
  | none => simp
  | some g => exact (hd g (findNode_some m v g hf).1).filter _

/-- Under duplicate-free names, the edge relation in terms of parents. -/
theorem edge_iff_parents (m : List GroupFilter) (hn : (nodeNames m).Nodup)
    (u v : String) :
    edgeOf m u v ↔ (v ∈ nodeNames m ∧ u ∈ parentsOf m v) := by
  unfold edgeOf
  constructor
  · rintro ⟨hu, g, hg, rfl, hdep⟩
    refine ⟨List.mem_map_of_mem GroupFilter.name hg, ?_⟩
    unfold parentsOf depsOf
    rw [findNode_eq m hn g hg]
    exact List.mem_filter.mpr ⟨hdep, by simpa [List.elem_eq_mem] using hu⟩
  · rintro ⟨hv, hu⟩
    refine ⟨parentsOf_sub m u v hu, ?_⟩
    unfold parentsOf depsOf at hu
    cases hf : findNode m v with
    | none => rw [hf] at hu; simp at hu
    | some g =>
      rw [hf] at hu
      obtain ⟨hg, hname⟩ := findNode_some m v g hf
      exact ⟨g, hg, hname, List.mem_of_mem_filter hu⟩

/-- Under duplicate-free names, membership in a known node's children list is
exactly the edge relation. -/
theorem children_iff_edge (m : List GroupFilter) (hn : (nodeNames m).Nodup)
    (u v : String) (hu : u ∈ nodeNames m) :
    v ∈ childrenOf m u ↔ edgeOf m u v := by
  rw [edge_iff_parents m hn u v]
  unfold childrenOf
  constructor
  · intro h
    rcases List.mem_map.mp h with ⟨g, hg, rfl⟩
    have hgm := List.mem_of_mem_filter hg
    have hdep : u ∈ g.depend_on := by
      have := List.of_mem_filter hg
      simpa [List.elem_eq_mem] using this
    refine ⟨List.mem_map_of_mem GroupFilter.name hgm, ?_⟩
    unfold parentsOf depsOf
    rw [findNode_eq m hn g hgm]
    exact List.mem_filter.mpr ⟨hdep, by simpa [List.elem_eq_mem] using hu⟩
  · rintro ⟨hv, hp⟩
    unfold parentsOf depsOf at hp
    cases hf : findNode m v with
    | none => rw [hf] at hp; simp at hp
    | some g =>
      rw [hf] at hp
      obtain ⟨hg, hname⟩ := findNode_some m v g hf
      refine List.mem_map.mpr ⟨g, List.mem_filter.mpr ⟨hg, ?_⟩, hname⟩
      simpa [List.elem_eq_mem] using List.mem_of_mem_filter hp

/-- Closed form of the Kahn child loop when the children are distinct: every
child's in-degree entry drops by one; children whose entry reached zero are
appended, in order. -/
theorem kahnChildren_spec (cs : List String) (hnd : cs.Nodup) :
    ∀ (indeg : String → Int) (q : List String),
      kahnChildren cs indeg q
        = (fun v => if v ∈ cs then indeg v - 1 else indeg v,
           q ++ cs.filter (fun c => decide (indeg c - 1 = 0))) := by
  induction cs with
  | nil =>
    intro indeg q
    simp [kahnChildren]
  | cons c cs ih =>
    intro indeg q
    obtain ⟨hc, hcs⟩ := List.nodup_cons.mp hnd
    show kahnChildren cs _ _ = _
    rw [ih hcs]
    simp only [Prod.mk.injEq]
    constructor
    · funext v
      by_cases hvc : v = c
      · subst hvc
        simp [hc]
      · by_cases hvcs : v ∈ cs <;> simp [hvc, hvcs]
    · rw [List.filter_cons]
      have hcong : cs.filter
            (fun x => decide ((if x = c then indeg c - 1 else indeg x) - 1 = 0))
          = cs.filter (fun x => decide (indeg x - 1 = 0)) := by
        apply List.filter_congr
        intro x hx
        have : x ≠ c := fun he => hc (he ▸ hx)
        simp [this]
      rw [hcong]
      by_cases hz : indeg c - 1 = 0 <;> simp [hz]

/-- Dropping the different element from a duplicate-free list shortens it by
exactly one. -/
theorem filter_ne_length (c : String) :
    ∀ (l : List String), l.Nodup → c ∈ l →
      (l.filter (fun u => !(u == c))).length + 1 = l.length := by
  intro l
  induction l with
  | nil => intro _ h; simp at h
  | cons a t ih =>
    intro hnd hmem
    obtain ⟨hat, hnt⟩ := List.nodup_cons.mp hnd
    rcases List.mem_cons.mp hmem with rfl | hct
    · have hft : t.filter (fun u => !(u == c)) = t := by
        apply List.filter_eq_self.mpr
        intro x hx
        have hxc : x ≠ c := fun he => hat (he ▸ hx)
        simp [hxc]
      rw [List.filter_cons]
      simp [hft]
    · have hac : a ≠ c := fun he => hat (he ▸ hct)
      rw [List.filter_cons]
      simp only [show (!(a == c)) = true by simp [hac], if_pos]
      simpa using ih hnt hct

/-- With nothing visited, the unvisited-parent count is the parent count. -/
theorem unvisitedCount_nil (m : List GroupFilter) (v : String) :
    unvisitedCount m [] v = (parentsOf m v).length := by
  simp [unvisitedCount]

/-- Visiting one more (previously unvisited) node decrements the
unvisited-parent count of exactly its children. -/
theorem unvisitedCount_append (m : List GroupFilter)
    (hd : ∀ g ∈ m, g.depend_on.Nodup) (visited : List String) (c : String)
    (hc : c ∉ visited) (v : String) :
    (c ∈ parentsOf m v →
      unvisitedCount m (visited ++ [c]) v + 1 = unvisitedCount m visited v) ∧
    (c ∉ parentsOf m v →
      unvisitedCount m (visited ++ [c]) v = unvisitedCount m visited v) := by
  have hsplit : unvisitedCount m (visited ++ [c]) v
      = (((parentsOf m v).filter (fun u => !visited.contains u)).filter
          (fun u => !(u == c))).length := by
    unfold unvisitedCount
    rw [List.filter_filter]
    congr 1
    apply List.filter_congr
    intro u _
    by_cases huv : u ∈ visited
    · simp [List.elem_eq_mem, huv]
    · by_cases huc : u = c <;> simp [List.elem_eq_mem, huv, huc]
  constructor
  · intro hcp
    rw [hsplit]
    apply filter_ne_length
    · exact (parentsOf_nodup m hd v).filter _
    · refine List.mem_filter.mpr ⟨hcp, ?_⟩
      simpa [List.elem_eq_mem] using hc
  · intro hcp
    rw [hsplit]
    unfold unvisitedCount
    congr 1
    apply List.filter_eq_self.mpr
    intro x hx
    have hxp : x ∈ parentsOf m v := List.mem_of_mem_filter hx
    have hxc : x ≠ c := fun he => hcp (he ▸ hxp)
    simp [hxc]

/-- Splitting a sum over a pointwise decomposition. -/
theorem sum_map_split (L : List String) (f g d : String → Nat)
    (h : ∀ v ∈ L, f v = g v + d v) :
    (L.map f).sum = (L.map g).sum + (L.map d).sum := by
  induction L with
  | nil => simp
  | cons a t ih =>
    simp only [List.map_cons, List.sum_cons]
    rw [h a (by simp), ih (fun v hv => h v (by simp [hv]))]
    omega

/-- Summing the indicator of a duplicate-free subset counts its length. -/
theorem sum_indicator (L : List String) (hL : L.Nodup) (s : List String)
    (hs : s.Nodup) (hsub : ∀ x ∈ s, x ∈ L) :
    (L.map (fun v => if v ∈ s then 1 else 0)).sum = s.length := by
  have step1 : ∀ (L' : List String),
      (L'.map (fun v => if v ∈ s then 1 else 0)).sum
        = (L'.filter (fun v => decide (v ∈ s))).length := by
    intro L'
    induction L' with
    | nil => simp
    | cons a t ih =>
      rw [List.map_cons, List.sum_cons, List.filter_cons, ih]
      by_cases ha : a ∈ s <;> simp [ha, Nat.add_comm]
  rw [step1]
  have hperm : (L.filter (fun v => decide (v ∈ s))).Perm s := by
    rw [List.perm_ext_iff_of_nodup (hL.filter _) hs]
    intro a
    simp only [List.mem_filter, decide_eq_true_eq]
    exact ⟨fun h => h.2, fun h => ⟨hsub a h, h⟩⟩
  exact hperm.length_eq

/-- One Kahn pop preserves the invariant and strictly decreases the
measure. -/
theorem KInv_step (m : List GroupFilter) (hn : (nodeNames m).Nodup)
    (hd : ∀ g ∈ m, g.depend_on.Nodup) (indeg : String → Int) (c : String)
    (rest visited : List String) (inv : KInv m ⟨indeg, c :: rest, visited⟩) :
    KInv m ⟨(kahnChildren (childrenOf m c) indeg rest).1,
            (kahnChildren (childrenOf m c) indeg rest).2,
            visited ++ [c]⟩ ∧
    kahnMeasure m ⟨(kahnChildren (childrenOf m c) indeg rest).1,
            (kahnChildren (childrenOf m c) indeg rest).2,
            visited ++ [c]⟩ + 1
      ≤ kahnMeasure m ⟨indeg, c :: rest, visited⟩ := by
  have hcnd := childrenOf_nodup m hn c
  rw [kahnChildren_spec (childrenOf m c) hcnd indeg rest]
  -- basic dissection of the old invariant
  have hcN : c ∈ nodeNames m := inv.sub c (by simp)
  obtain ⟨hvnd, hcrnd, hdisj⟩ := List.nodup_append.mp inv.nodup
  obtain ⟨hcrest, hrnd⟩ := List.nodup_cons.mp hcrnd
  have hcv : c ∉ visited := fun h => hdisj h (by simp)
  -- parents of visited nodes are visited
  have hvp : ∀ x ∈ visited, ∀ u ∈ parentsOf m x, u ∈ visited := by
    intro x hx u hu
    rcases List.mem_iff_get.mp hx with ⟨i, rfl⟩
    exact List.take_subset _ _ (inv.topo i.1 i.2 u hu)
  have hvz : ∀ x ∈ visited, unvisitedCount m visited x = 0 := by
    intro x hx
    unfold unvisitedCount
    rw [List.length_eq_zero, List.filter_eq_nil]
    intro u hu
    simp [List.elem_eq_mem, hvp x hx u hu]
  have hqz : ∀ x ∈ c :: rest, unvisitedCount m visited x = 0 := by
    intro x hx
    unfold unvisitedCount
    rw [List.length_eq_zero, List.filter_eq_nil]
    intro u hu
    simp [List.elem_eq_mem, inv.qz x hx u hu]
  -- children of c are exactly the known nodes with parent c
  have hCP : ∀ v, v ∈ childrenOf m c ↔ (v ∈ nodeNames m ∧ c ∈ parentsOf m v) := by
    intro v
    rw [children_iff_edge m hn c v hcN, edge_iff_parents m hn c v]
  -- the new in-degree function is correct
  have hindeg : ∀ v ∈ nodeNames m,
      (if v ∈ childrenOf m c then indeg v - 1 else indeg v)
        = (unvisitedCount m (visited ++ [c]) v : Int) := by
    intro v hv
    have hiv := inv.indeg v hv
    dsimp only at hiv
    by_cases hvc : v ∈ childrenOf m c
    · have hcp : c ∈ parentsOf m v := ((hCP v).mp hvc).2
      have h1 := (unvisitedCount_append m hd visited c hcv v).1 hcp
      rw [if_pos hvc]
      omega
    · have hcp : c ∉ parentsOf m v := fun h => hvc ((hCP v).mpr ⟨hv, h⟩)
      have h1 := (unvisitedCount_append m hd visited c hcv v).2 hcp
      rw [if_neg hvc]
      omega
  -- facts about the newly enqueued nodes
  have hnewmem : ∀ x, x ∈ (childrenOf m c).filter (fun x => decide (indeg x - 1 = 0))
      ↔ (x ∈ childrenOf m c ∧ indeg x = 1) := by
    intro x
    simp only [List.mem_filter, decide_eq_true_eq]
    constructor
    · rintro ⟨h1, h2⟩; exact ⟨h1, by omega⟩
    · rintro ⟨h1, h2⟩; exact ⟨h1, by omega⟩
  have hnewuc : ∀ x ∈ (childrenOf m c).filter (fun x => decide (indeg x - 1 = 0)),
      x ∈ nodeNames m ∧ unvisitedCount m visited x = 1 := by
    intro x hx
    obtain ⟨h1, h2⟩ := (hnewmem x).mp hx
    have hxN := childrenOf_sub m c x h1
    refine ⟨hxN, ?_⟩
    have hix := inv.indeg x hxN
    dsimp only at hix
    omega
  have hnewfresh : ∀ x ∈ (childrenOf m c).filter (fun x => decide (indeg x - 1 = 0)),
      x ∉ visited ∧ x ∉ c :: rest := by
    intro x hx
    obtain ⟨hxN, hx1⟩ := hnewuc x hx
    constructor
    · intro hxv; have := hvz x hxv; omega
    · intro hxq; have := hqz x hxq; omega
  -- parents of a newly enqueued node: visited or c itself
  have hone : ∀ x ∈ (childrenOf m c).filter (fun x => decide (indeg x - 1 = 0)),
      ∀ u ∈ parentsOf m x, u ∈ visited ∨ u = c := by
    intro x hx u hu
    by_cases huv : u ∈ visited
    · exact Or.inl huv
    · right
      obtain ⟨hxN, hx1⟩ := hnewuc x hx
      have hcp : c ∈ parentsOf m x := ((hCP x).mp ((hnewmem x).mp hx).1).2
      unfold unvisitedCount at hx1
      rcases List.length_eq_one.mp hx1 with ⟨a, ha⟩
      have hu' : u ∈ [a] := by
        rw [← ha]
        exact List.mem_filter.mpr ⟨hu, by simpa [List.elem_eq_mem] using huv⟩
      have hc' : c ∈ [a] := by
        rw [← ha]
        exact List.mem_filter.mpr ⟨hcp, by simpa [List.elem_eq_mem] using hcv⟩
      simp at hu' hc'
      rw [hu', hc']
  constructor
  · -- the invariant is preserved
    refine ⟨?_, ?_, hindeg, ?_, ?_, ?_⟩
    · -- sub
      intro v hv
      simp only [List.mem_append, List.mem_cons, List.mem_singleton,
        List.not_mem_nil, or_false] at hv
      rcases hv with (hv | rfl) | hv | hv
      · exact inv.sub v (by simp [hv])
      · exact hcN
      · exact inv.sub v (by simp [hv])
      · exact childrenOf_sub m c v (List.mem_of_mem_filter hv)
    · -- nodup
      have hre : (visited ++ [c]) ++
          (rest ++ (childrenOf m c).filter (fun x => decide (indeg x - 1 = 0)))
          = (visited ++ c :: rest)
            ++ (childrenOf m c).filter (fun x => decide (indeg x - 1 = 0)) := by
        simp
      rw [hre, List.nodup_append]
      refine ⟨inv.nodup, hcnd.filter _, ?_⟩
      intro a ha hanew
      obtain ⟨hav, haq⟩ := hnewfresh a hanew
      rcases List.mem_append.mp ha with h | h
      · exact hav h
      · exact haq h
    · -- qz
      intro v hv u hu
      rcases List.mem_append.mp hv with hv | hv
      · exact List.mem_append_left _ (inv.qz v (by simp [hv]) u hu)
      · rcases hone v hv u hu with h | rfl
        · exact List.mem_append_left _ h
        · simp
    · -- topo
      intro i hi u hu
      simp only [List.length_append, List.length_cons, List.length_nil] at hi
      by_cases hlt : i < visited.length
      · have hget : (visited ++ [c]).get ⟨i, by simp; omega⟩
            = visited.get ⟨i, hlt⟩ := List.get_append i hlt
        rw [hget] at hu
        have htake : (visited ++ [c]).take i = visited.take i := by
          rw [List.take_append_eq_append_take]
          simp [Nat.sub_eq_zero_of_le (le_of_lt hlt)]
        rw [htake]
        exact inv.topo i hlt u hu
      · have hieq : visited.length = i := by omega
        subst hieq
        have hget : (visited ++ [c]).get ⟨visited.length, by simp⟩ = c := by
          simp [List.get_append_right]
        rw [hget] at hu
        have htake : (visited ++ [c]).take visited.length = visited :=
          List.take_left visited [c]
        rw [htake]
        exact inv.qz c (by simp) u hu
    · -- zero
      intro v hv hz
      dsimp only at hz
      by_cases hvc : v ∈ childrenOf m c
      · rw [if_pos hvc] at hz
        right
        apply List.mem_append_right
        exact (hnewmem v).mpr ⟨hvc, by omega⟩
      · rw [if_neg hvc] at hz
        rcases inv.zero v hv hz with h | h
        · exact Or.inl (List.mem_append_left _ h)
        · rcases List.mem_cons.mp h with rfl | h
          · exact Or.inl (by simp)
          · exact Or.inr (List.mem_append_left _ h)
  · -- the measure strictly decreases
    unfold kahnMeasure
    simp only [List.length_append, List.length_cons]
    have hsum : ((nodeNames m).map (fun v => unvisitedCount m visited v)).sum
        = ((nodeNames m).map (fun v => unvisitedCount m (visited ++ [c]) v)).sum
          + ((nodeNames m).map (fun v => if v ∈ childrenOf m c then 1 else 0)).sum := by
      apply sum_map_split
      intro v hv
      by_cases hvc : v ∈ childrenOf m c
      · have hcp : c ∈ parentsOf m v := ((hCP v).mp hvc).2
        have h1 := (unvisitedCount_append m hd visited c hcv v).1 hcp
        rw [if_pos hvc]
        omega
      · have hcp : c ∉ parentsOf m v := fun h => hvc ((hCP v).mpr ⟨hv, h⟩)
        have h1 := (unvisitedCount_append m hd visited c hcv v).2 hcp
        rw [if_neg hvc]
        omega
    have hind : ((nodeNames m).map (fun v => if v ∈ childrenOf m c then 1 else 0)).sum
        = (childrenOf m c).length :=
      sum_indicator (nodeNames m) hn (childrenOf m c) hcnd (childrenOf_sub m c)
    have hlen : ((childrenOf m c).filter (fun x => decide (indeg x - 1 = 0))).length
        ≤ (childrenOf m c).length := List.length_filter_le _ _
    omega

/-- The initial Kahn state satisfies the invariant. -/
theorem KInv_init (m : List GroupFilter) (hn : (nodeNames m).Nodup) :
    KInv m (kahnInit m) := by
  refine ⟨?_, ?_, ?_, ?_, ?_, ?_⟩
  · intro v hv
    simp only [kahnInit, List.nil_append] at hv
    exact List.mem_of_mem_filter hv
  · simp only [kahnInit, List.nil_append]
    exact hn.filter _
  · intro v hv
    simp only [kahnInit, unvisitedCount_nil, inDegree0]
  · intro v hv u hu
    exfalso
    simp only [kahnInit, List.mem_filter, decide_eq_true_eq, inDegree0] at hv
    have : (parentsOf m v).length = 0 := by omega
    rw [List.length_eq_zero] at this
    rw [this] at hu
    simp at hu
  · intro i hi
    simp only [kahnInit, List.length_nil] at hi
    omega
  · intro v hv hz
    right
    simp only [kahnInit] at hz ⊢
    exact List.mem_filter.mpr ⟨hv, by simpa using hz⟩

/-- Running the Kahn loop with fuel at least the measure preserves the
invariant and drains the queue. -/
theorem kahnLoop_master (m : List GroupFilter) (hn : (nodeNames m).Nodup)
    (hd : ∀ g ∈ m, g.depend_on.Nodup) :
    ∀ (fuel : Nat) (st : KState), KInv m st → kahnMeasure m st ≤ fuel →
      KInv m (kahnLoop m fuel st) ∧ (kahnLoop m fuel st).queue = [] := by
  intro fuel
  induction fuel with
  | zero =>
    intro st inv hm
    rcases st with ⟨indeg, q, visited⟩
    cases q with
    | nil => exact ⟨inv, rfl⟩
    | cons c rest =>
      exfalso
      unfold kahnMeasure at hm
      simp at hm
  | succ fuel ih =>
    intro st inv hm
    rcases st with ⟨indeg, q, visited⟩
    cases q with
    | nil => exact ⟨inv, rfl⟩
    | cons c rest =>
      obtain ⟨inv1, hdec⟩ := KInv_step m hn hd indeg c rest visited inv
      show KInv m (kahnLoop m fuel _) ∧ _
      exact ih _ inv1 (by omega)

/-- The chosen fuel covers the initial measure. -/
theorem kahnFuel_le (m : List GroupFilter) :
    kahnMeasure m (kahnInit m) ≤ kahnFuel m := by
  unfold kahnMeasure kahnFuel
  simp only [kahnInit, unvisitedCount_nil]
  omega

/-- An element of a take-prefix has its first occurrence inside it. -/
theorem indexOf_lt_of_mem_take (u : String) :
    ∀ (l : List String) (i : Nat), u ∈ l.take i → l.indexOf u < i := by
  intro l
  induction l with
  | nil => intro i h; simp at h
  | cons a t ih =>
    intro i h
    cases i with
    | zero => simp at h
    | succ i =>
      rw [List.take_succ_cons] at h
      by_cases hau : a = u
      · subst hau
        simp [List.indexOf_cons_self]
      · rcases List.mem_cons.mp h with rfl | h
        · exact absurd rfl hau
        · rw [List.indexOf_cons_ne t hau]
          exact Nat.succ_lt_succ (ih i h)

/-- If the Kahn pass visits every node, its visit order is a topological
rank: bounded by the node count and strictly increasing along every
dependency edge. -/
theorem kahn_complete_rank (m : List GroupFilter) (hn : (nodeNames m).Nodup)
    (hd : ∀ g ∈ m, g.depend_on.Nodup)
    (hcyc : GroupFilter.is_cyclic m = false) :
    ∃ rank : String → Nat,
      (∀ v ∈ nodeNames m, rank v < (nodeNames m).length) ∧
      (∀ u v, edgeOf m u v → rank u < rank v) := by
  obtain ⟨inv, hq⟩ := kahnLoop_master m hn hd (kahnFuel m) (kahnInit m)
    (KInv_init m hn) (kahnFuel_le m)
  set fin := kahnLoop m (kahnFuel m) (kahnInit m) with hfin
  have hlen : fin.visited.length = (nodeNames m).length := by
    unfold GroupFilter.is_cyclic at hcyc
    simpa using hcyc
  have hvnd : fin.visited.Nodup := by
    have := inv.nodup
    rw [hq] at this
    simpa using this
  have hvsub : fin.visited ⊆ nodeNames m := by
    intro x hx
    exact inv.sub x (List.mem_append_left _ hx)
  have hperm : fin.visited.Perm (nodeNames m) :=
    (hvnd.subperm hvsub).perm_of_length_le (le_of_eq hlen.symm)
  have hnsub : ∀ v ∈ nodeNames m, v ∈ fin.visited := fun v hv =>
    hperm.mem_iff.mpr hv
  refine ⟨fun v => fin.visited.indexOf v, ?_, ?_⟩
  · intro v hv
    rw [← hlen]
    exact List.indexOf_lt_length.mpr (hnsub v hv)
  · intro u v hedge
    obtain ⟨hvN, hup⟩ := (edge_iff_parents m hn u v).mp hedge
    have hvvis : v ∈ fin.visited := hnsub v hvN
    rcases List.mem_iff_get.mp hvvis with ⟨i, hget⟩
    have hu_take : u ∈ fin.visited.take i.1 := by
      apply inv.topo i.1 i.2 u
      rw [hget]
      exact hup
    have hui : fin.visited.indexOf u < i.1 := indexOf_lt_of_mem_take u _ i.1 hu_take
    have hvi : fin.visited.indexOf v = i.1 := by
      have hlt : fin.visited.indexOf v < fin.visited.length :=
        List.indexOf_lt_length.mpr hvvis
      have hgv : fin.visited.get ⟨fin.visited.indexOf v, hlt⟩ = v :=
        List.indexOf_get hlt
      have := (List.Nodup.get_inj_iff hvnd).mp (hgv.trans hget.symm)
      exact congrArg Fin.val this
    show fin.visited.indexOf u < fin.visited.indexOf v
    omega

/-- A rank strictly increasing along edges forbids cycles. -/
theorem no_cycle_of_rank (m : List GroupFilter) (rank : String → Nat)
    (hrank : ∀ u v, edgeOf m u v → rank u < rank v) : ¬ HasCycle m := by
  rintro ⟨v, l, hchain, hclose⟩
  have hmono : ∀ (w : String) (t : List String), List.Chain (edgeOf m) w t →
      rank w ≤ rank (t.getLastD w) := by
    intro w t
    induction t generalizing w with
    | nil => intro _; simp
    | cons a t ih =>
      intro hch
      rcases hch with _ | ⟨hwa, hch⟩
      have h1 : rank w < rank a := hrank w a hwa
      have h2 := ih a hch
      simp only [List.getLastD_cons]
      omega
  have h1 := hmono v l hchain
  have h2 := hrank _ v hclose
  omega

/-- A real cycle makes the source's Kahn check report `True`. -/
theorem is_cyclic_true_of_hasCycle (m : List GroupFilter)
    (hn : (nodeNames m).Nodup) (hd : ∀ g ∈ m, g.depend_on.Nodup)
    (hcyc : HasCycle m) : GroupFilter.is_cyclic m = true := by
  by_contra hne
  rw [Bool.not_eq_true] at hne
  obtain ⟨rank, _, hrank⟩ := kahn_complete_rank m hn hd hne
  exact no_cycle_of_rank m rank hrank hcyc

/-- Walking parent links `k` times yields a chain of edges back down to the
start. -/
theorem chain_of_desc (m : List GroupFilter) (g : Nat → String)
    (h : ∀ k, edgeOf m (g (k + 1)) (g k)) (i : Nat) :
    ∀ k, ∃ l : List String,
      List.Chain (edgeOf m) (g (i + k)) l ∧ l.getLastD (g (i + k)) = g i := by
  intro k
  induction k with
  | zero => exact ⟨[], List.Chain.nil, rfl⟩
  | succ k ih =>
    obtain ⟨l, hch, hlast⟩ := ih
    refine ⟨g (i + k) :: l, ?_, ?_⟩
    · exact List.Chain.cons (show edgeOf m (g (i + k + 1)) (g (i + k)) from h (i + k)) hch
    · rw [List.getLastD_cons]
      exact hlast

/-- If the Kahn pass misses a node, the graph has a cycle; contrapositive:
an acyclic graph is never reported cyclic. -/
theorem is_cyclic_false_of_acyclic (m : List GroupFilter)
    (hn : (nodeNames m).Nodup) (hd : ∀ g ∈ m, g.depend_on.Nodup)
    (hacyc : ¬ HasCycle m) : GroupFilter.is_cyclic m = false := by
  by_contra hne
  rw [Bool.not_eq_false] at hne
  apply hacyc
  obtain ⟨inv, hq⟩ := kahnLoop_master m hn hd (kahnFuel m) (kahnInit m)
    (KInv_init m hn) (kahnFuel_le m)
  set fin := kahnLoop m (kahnFuel m) (kahnInit m) with hfin
  have hne' : fin.visited.length ≠ (nodeNames m).length := by
    unfold GroupFilter.is_cyclic at hne
    simpa using hne
  have hvnd : fin.visited.Nodup := by
    have := inv.nodup
    rw [hq] at this
    simpa using this
  have hvsub : fin.visited ⊆ nodeNames m := fun x hx =>
    inv.sub x (List.mem_append_left _ hx)
  -- the set of unvisited nodes
  set S := (nodeNames m).filter (fun v => decide (v ∉ fin.visited)) with hS
  have hSne : S ≠ [] := by
    intro hnil
    have hsub2 : ∀ v ∈ nodeNames m, v ∈ fin.visited := by
      intro v hv
      by_contra hvv
      have : v ∈ S := List.mem_filter.mpr ⟨hv, by simpa using hvv⟩
      rw [hnil] at this
      simp at this
    have h1 := (hn.subperm hsub2).length_le
    have h2 := (hvnd.subperm hvsub).length_le
    omega
  have hSmem : ∀ v ∈ S, v ∈ nodeNames m ∧ v ∉ fin.visited := by
    intro v hv
    have := List.mem_filter.mp hv
    exact ⟨this.1, by simpa using this.2⟩
  -- every unvisited node has an unvisited parent
  have hstep : ∀ v ∈ S, ∃ u, u ∈ S ∧ edgeOf m u v := by
    intro v hv
    obtain ⟨hvN, hvv⟩ := hSmem v hv
    have hnz : fin.in_degree v ≠ 0 := by
      intro hz
      rcases inv.zero v hvN hz with h | h
      · exact hvv h
      · rw [hq] at h; simp at h
    have hiv := inv.indeg v hvN
    have hucnz : unvisitedCount m fin.visited v ≠ 0 := by
      intro h0
      rw [h0] at hiv
      simp at hiv
      exact hnz hiv
    have : ∃ u, u ∈ (parentsOf m v).filter (fun u => !fin.visited.contains u) := by
      rcases hl : (parentsOf m v).filter (fun u => !fin.visited.contains u) with _ | ⟨a, t⟩
      · exfalso
        apply hucnz
        unfold unvisitedCount
        rw [hl]
        rfl
      · exact ⟨a, by simp⟩
    obtain ⟨u, hu⟩ := this
    have hup : u ∈ parentsOf m v := List.mem_of_mem_filter hu
    have huv : u ∉ fin.visited := by
      have := List.of_mem_filter hu
      simpa [List.elem_eq_mem] using this
    have huN : u ∈ nodeNames m := parentsOf_sub m u v hup
    exact ⟨u, List.mem_filter.mpr ⟨huN, by simpa using huv⟩,
      (edge_iff_parents m hn u v).mpr ⟨hvN, hup⟩⟩
  -- choose a parent function and iterate it
  have hchoice : ∀ v : String, ∃ u : String, v ∈ S → (u ∈ S ∧ edgeOf m u v) := by
    intro v
    by_cases hv : v ∈ S
    · obtain ⟨u, hu1, hu2⟩ := hstep v hv
      exact ⟨u, fun _ => ⟨hu1, hu2⟩⟩
    · exact ⟨v, fun h => absurd h hv⟩
  choose f hf using hchoice
  have hv0 : S.head hSne ∈ S := List.head_mem hSne
  set g : Nat → String := fun k => f^[k] (S.head hSne) with hg
  have hgS : ∀ k, g k ∈ S := by
    intro k
    induction k with
    | zero => exact hv0
    | succ k ih =>
      have : g (k + 1) = f (g k) := by
        simp [hg, Function.iterate_succ_apply']
      rw [this]
      exact (hf (g k) ih).1
  have hgE : ∀ k, edgeOf m (g (k + 1)) (g k) := by
    intro k
    have : g (k + 1) = f (g k) := by
      simp [hg, Function.iterate_succ_apply']
    rw [this]
    exact (hf (g k) (hgS k)).2
  -- pigeonhole: two equal iterates
  have hpigeon : ∃ i j, i < j ∧ g i = g j := by
    have hcard : S.toFinset.card < (Finset.range (S.length + 1)).card := by
      have := S.toFinset_card_le
      simpa using Nat.lt_succ_of_le this
    obtain ⟨x, hx, y, hy, hxy, hgxy⟩ :=
      Finset.exists_ne_map_eq_of_card_lt_of_maps_to hcard
        (fun k _ => List.mem_toFinset.mpr (hgS k))
    rcases Nat.lt_or_ge x y with h | h
    · exact ⟨x, y, h, hgxy⟩
    · have : y < x := by
        rcases Nat.lt_or_ge y x with h2 | h2
        · exact h2
        · omega
      exact ⟨y, x, this, hgxy.symm⟩
  obtain ⟨i, j, hij, hgij⟩ := hpigeon
  -- assemble the cycle  g j → g (j-1) → ... → g (i+1) → g i = g j
  obtain ⟨l, hch, hlast⟩ := chain_of_desc m g hgE (i + 1) (j - (i + 1))
  have hidx : i + 1 + (j - (i + 1)) = j := by omega
  rw [hidx] at hch hlast
  refine ⟨g j, l, hch, ?_⟩
  rw [hlast, ← hgij]
  exact hgE i

/-- C4: a cyclic dependency graph (over edges restricted to known names)
makes the matcher return `none` for every resource, whatever the groups'
own pipelines would do; the cycle check precedes all evaluation. -/
theorem C4_cyclic_returns_none (m : List GroupFilter)
    (hn : (nodeNames m).Nodup) (hd : ∀ g ∈ m, g.depend_on.Nodup)
    (hcyc : HasCycle m) :
    ∀ (res : Resource) (out : Output),
      GroupFilter.matchNodes m res out = Option.none := by
  intro res out
  unfold GroupFilter.matchNodes
  rw [is_cyclic_true_of_hasCycle m hn hd hcyc]
  rfl

/-- Witness for C4 at a concrete input: the mutually dependent pair is
reported cyclic although both groups would match. -/
theorem C4_witness :
    GroupFilter.matchNodes
      [⟨"A", [], .all, ["B"], .and, []⟩, ⟨"B", [], .all, ["A"], .and, []⟩]
      ⟨Option.some "r", []⟩ [] = Option.none :=
  C4_cyclic_returns_none
    [⟨"A", [], .all, ["B"], .and, []⟩, ⟨"B", [], .all, ["A"], .and, []⟩]
    (by decide) (by decide)
    ⟨"A", ["B"], List.Chain.cons (by decide) List.Chain.nil, by decide⟩
    ⟨Option.some "r", []⟩ []

/-- Members of the child loop's output frontier come from the incoming
frontier or from the processed children. -/
theorem matchChildren_next (m : List GroupFilter) (name : String) (matched : Bool) :
    ∀ (cs : List String) (indeg : String → Int) (next : List String) (c : String),
      c ∈ (matchChildren m name matched cs indeg next).2 → c ∈ next ∨ c ∈ cs := by
  intro cs
  induction cs with
  | nil => intro indeg next c h; exact Or.inl h
  | cons x t ih =>
    intro indeg next c h
    unfold matchChildren at h
    cases hf : findNode m x with
    | none =>
      rw [hf] at h
      rcases ih _ _ _ h with h | h
      · exact Or.inl h
      · exact Or.inr (List.mem_cons_of_mem x h)
    | some cnode =>
      rw [hf] at h
      dsimp only at h
      by_cases hx : xor matched (cnode.depend_on_inverted.contains name)
      · rw [if_pos hx] at h
        rcases ih _ _ _ h with h | h
        · by_cases hz : cnode.depend_on_mode = DependOnMode.or ∨ indeg x - 1 = 0
          · rw [if_pos hz] at h
            rcases List.mem_append.mp h with h | h
            · exact Or.inl h
            · simp at h
              exact Or.inr (h ▸ List.mem_cons_self x t)
          · rw [if_neg hz] at h
            exact Or.inl h
        · exact Or.inr (List.mem_cons_of_mem x h)
      · rw [if_neg hx] at h
        rcases ih _ _ _ h with h | h
        · exact Or.inl h
        · exact Or.inr (List.mem_cons_of_mem x h)

/-- Members of a round's next frontier come from the incoming accumulator or
are children of a frontier node. -/
theorem matchRoundGo_next (m : List GroupFilter) (res : Resource) :
    ∀ (frontier : List String) (indeg : String → Int) (next rm : List String)
      (out : Output) (c : String),
      c ∈ (matchRoundGo m res frontier indeg next rm out).2.1 →
      c ∈ next ∨ ∃ p ∈ frontier, c ∈ childrenOf m p := by
  intro frontier
  induction frontier with
  | nil => intro indeg next rm out c h; exact Or.inl h
  | cons name rest ih =>
    intro indeg next rm out c h
    unfold matchRoundGo at h
    cases hf : findNode m name with
    | none =>
      rw [hf] at h
      rcases ih _ _ _ _ _ h with h | ⟨p, hp, hc⟩
      · exact Or.inl h
      · exact Or.inr ⟨p, List.mem_cons_of_mem name hp, hc⟩
    | some node =>
      rw [hf] at h
      rcases ih _ _ _ _ _ h with h | ⟨p, hp, hc⟩
      · rcases matchChildren_next m name _ _ _ _ _ h with h | h
        · exact Or.inl h
        · exact Or.inr ⟨name, List.mem_cons_self name rest, h⟩
      · exact Or.inr ⟨p, List.mem_cons_of_mem name hp, hc⟩

/-- Members of a round's matched list come from the incoming accumulator or
the frontier itself. -/
theorem matchRoundGo_rm (m : List GroupFilter) (res : Resource) :
    ∀ (frontier : List String) (indeg : String → Int) (next rm : List String)
      (out : Output) (c : String),
      c ∈ (matchRoundGo m res frontier indeg next rm out).2.2.1 →
      c ∈ rm ∨ c ∈ frontier := by
  intro frontier
  induction frontier with
  | nil => intro indeg next rm out c h; exact Or.inl h
  | cons name rest ih =>
    intro indeg next rm out c h
    unfold matchRoundGo at h
    cases hf : findNode m name with
    | none =>
      rw [hf] at h
      rcases ih _ _ _ _ _ h with h | h
      · exact Or.inl h
      · exact Or.inr (List.mem_cons_of_mem name h)
    | some node =>
      rw [hf] at h
      dsimp only at h
      rcases ih _ _ _ _ _ h with h | h
      · by_cases hm : (node.pipeline res out).1
        · rw [if_pos hm] at h
          rcases List.mem_append.mp h with h | h
          · exact Or.inl h
          · simp at h
            exact Or.inr (h ▸ List.mem_cons_self name rest)
        · rw [if_neg hm] at h
          exact Or.inl h
      · exact Or.inr (List.mem_cons_of_mem name h)

/-- With a topological rank available, the matcher's layered loop drains its
frontier within `rank`-bounded fuel. -/
theorem matchLoop_terminates (m : List GroupFilter) (res : Resource)
    (rank : String → Nat) (N : Nat) (hn : (nodeNames m).Nodup)
    (hrank : ∀ u v, edgeOf m u v → rank u < rank v)
    (hbound : ∀ v ∈ nodeNames m, rank v < N) :
    ∀ (fuel : Nat) (st : MState),
      (∀ c ∈ st.current_round, c ∈ nodeNames m ∧ N ≤ rank c + fuel) →
      ∃ l o, matchLoop m res fuel st = Option.some (l, o) := by
  intro fuel
  induction fuel with
  | zero =>
    intro st hfr
    rcases st with ⟨indeg, cr, result, out⟩
    cases cr with
    | nil => exact ⟨result, out, rfl⟩
    | cons c t =>
      exfalso
      have h1 := hfr c (by simp)
      have h2 := hbound c h1.1
      omega
  | succ fuel ih =>
    intro st hfr
    rcases hcr : st.current_round with _ | ⟨a, t⟩
    · rcases st with ⟨indeg, cr, result, out⟩
      simp only at hcr
      subst hcr
      exact ⟨result, out, matchLoop_empty m res _ _ _ _⟩
    · rw [matchLoop_step m res fuel st (by rw [hcr]; simp)]
      apply ih
      intro c hc
      have hc' : c ∈ (matchRoundGo m res st.current_round st.in_degree [] []
          st.out).2.1 := hc
      rcases matchRoundGo_next m res st.current_round st.in_degree [] [] st.out
          c hc' with h | ⟨p, hp, hcp⟩
      · simp at h
      · obtain ⟨hpN, hpB⟩ := hfr p hp
        have hedge : edgeOf m p c := (children_iff_edge m hn p c hpN).mp hcp
        have hcN : c ∈ nodeNames m := childrenOf_sub m p c hcp
        have := hrank p c hedge
        exact ⟨hcN, by omega⟩

/-- A non-empty frontier takes one more round, rounds-instrumented
version. -/
theorem matchLoopRounds_step (m : List GroupFilter) (res : Resource)
    (fuel : Nat) (st : MState) (acc : List (List String))
    (h : st.current_round ≠ []) :
    matchLoopRounds m res (fuel + 1) st acc
      = matchLoopRounds m res fuel (matchRound m res st)
          (acc ++ [roundMatched m res st]) := by
  rcases st with ⟨indeg, cr, result, out⟩
  cases cr with
  | nil => exact absurd rfl h
  | cons a t => rfl

/-- An empty frontier returns the accumulated rounds, whatever the fuel. -/
theorem matchLoopRounds_empty (m : List GroupFilter) (res : Resource)
    (fuel : Nat) (indeg : String → Int) (result : List String) (out : Output)
    (acc : List (List String)) :
    matchLoopRounds m res fuel ⟨indeg, [], result, out⟩ acc
      = Option.some (acc, out) := by
  cases fuel <;> rfl

/-- The flat matcher loop and its rounds-instrumented version agree: the flat
result is the accumulated result plus the concatenation of the rounds. -/
theorem matchLoop_rounds_rel (m : List GroupFilter) (res : Resource) :
    ∀ (fuel : Nat) (st : MState) (acc : List (List String))
      (l : List String) (o : Output),
      matchLoop m res fuel st = Option.some (l, o) →
      ∃ rs, matchLoopRounds m res fuel st acc = Option.some (acc ++ rs, o) ∧
        l = st.result ++ rs.join := by
  intro fuel
  induction fuel with
  | zero =>
    intro st acc l o h
    rcases st with ⟨indeg, cr, result, out⟩
    cases cr with
    | nil =>
      rw [matchLoop_empty] at h
      cases h
      exact ⟨[], by rw [matchLoopRounds_empty]; simp, by simp⟩
    | cons a t => simp [matchLoop] at h
  | succ fuel ih =>
    intro st acc l o h
    rcases hcr : st.current_round with _ | ⟨a, t⟩
    · rcases st with ⟨indeg, cr, result, out⟩
      simp only at hcr
      subst hcr
      rw [matchLoop_empty] at h
      cases h
      exact ⟨[], by rw [matchLoopRounds_empty]; simp, by simp⟩
    · have hne : st.current_round ≠ [] := by rw [hcr]; simp
      rw [matchLoop_step m res fuel st hne] at h
      rw [matchLoopRounds_step m res fuel st acc hne]
      obtain ⟨rs, heq, hl⟩ := ih (matchRound m res st) (acc ++ [roundMatched m res st]) l o h
      refine ⟨roundMatched m res st :: rs, by rw [heq]; simp, ?_⟩
      rw [hl]
      simp [matchRound, roundMatched]

/-- Every name the matcher's loop returns is a known group name. -/
theorem matchLoop_subset (m : List GroupFilter) (res : Resource) :
    ∀ (fuel : Nat) (st : MState),
      (∀ c ∈ st.current_round, c ∈ nodeNames m) →
      (∀ x ∈ st.result, x ∈ nodeNames m) →
      ∀ (l : List String) (o : Output),
        matchLoop m res fuel st = Option.some (l, o) →
        ∀ x ∈ l, x ∈ nodeNames m := by
  intro fuel
  induction fuel with
  | zero =>
    intro st hfr hres l o h
    rcases st with ⟨indeg, cr, result, out⟩
    cases cr with
    | nil =>
      rw [matchLoop_empty] at h
      cases h
      exact hres
    | cons a t => simp [matchLoop] at h
  | succ fuel ih =>
    intro st hfr hres l o h
    rcases hcr : st.current_round with _ | ⟨a, t⟩
    · rcases st with ⟨indeg, cr, result, out⟩
      simp only at hcr
      subst hcr
      rw [matchLoop_empty] at h
      cases h
      exact hres
    · have hne : st.current_round ≠ [] := by rw [hcr]; simp
      rw [matchLoop_step m res fuel st hne] at h
      refine ih (matchRound m res st) ?_ ?_ l o h
      · intro c hc
        rcases matchRoundGo_next m res st.current_round st.in_degree [] [] st.out
            c hc with hmem | ⟨p, hp, hcp⟩
        · simp at hmem
        · exact childrenOf_sub m p c hcp
      · intro x hx
        rcases List.mem_append.mp hx with hx | hx
        · exact hres x hx
        · rcases matchRoundGo_rm m res st.current_round st.in_degree [] [] st.out
              x hx with hmem | hmem
          · simp at hmem
          · exact hfr x hmem

/-- C1 (amended): for every acyclic collection of group filters (with the
duplicate-freeness Python's dict keys and sets guarantee) and every
resource, the matcher terminates and returns the concatenation, in
round order, of the per-round matched-name lists; every returned name is a
name of a group in the collection.  (A name may however appear more than
once: reaching a group through several fired `or`-mode edges evaluates and
reports it once per arrival, see the counterexample.) -/
theorem C1_amended (m : List GroupFilter) (res : Resource) (out : Output)
    (hn : (nodeNames m).Nodup) (hd : ∀ g ∈ m, g.depend_on.Nodup)
    (hacyc : ¬ HasCycle m) :
    ∃ rs o, GroupFilter.matchRounds m res out = Option.some (rs, o) ∧
      GroupFilter.matchNodes m res out = Option.some (rs.join, o) ∧
      ∀ x ∈ rs.join, x ∈ nodeNames m := by
  have hic := is_cyclic_false_of_acyclic m hn hd hacyc
  obtain ⟨rank, hbound, hrank⟩ := kahn_complete_rank m hn hd hic
  have hmlen : (nodeNames m).length = m.length := List.length_map m GroupFilter.name
  have hinit : ∀ c ∈ (matchInit m out).current_round,
      c ∈ nodeNames m ∧ (nodeNames m).length ≤ rank c + (m.length + 1) := by
    intro c hc
    have hcN : c ∈ nodeNames m := List.mem_of_mem_filter hc
    exact ⟨hcN, by omega⟩
  obtain ⟨l, o, hml⟩ := matchLoop_terminates m res rank (nodeNames m).length hn
    hrank hbound (m.length + 1) (matchInit m out) hinit
  obtain ⟨rs, hrounds, hl⟩ := matchLoop_rounds_rel m res (m.length + 1)
    (matchInit m out) [] l o hml
  have hsub := matchLoop_subset m res (m.length + 1) (matchInit m out)
    (fun c hc => List.mem_of_mem_filter hc) (fun x hx => by simp [matchInit] at hx)
    l o hml
  have hl' : l = rs.join := by simpa [matchInit] using hl
  refine ⟨rs, o, ?_, ?_, ?_⟩
  · unfold GroupFilter.matchRounds
    rw [hic]
    simpa using hrounds
  · unfold GroupFilter.matchNodes
    rw [hic]
    simp only [Bool.false_eq_true, if_false]
    rw [hml, hl']
  · intro x hx
    exact hsub x (hl' ▸ hx)

/-- C1 fails as stated on the code: for the acyclic graph `A`, `B` (both
dependency-free and matching) and `C` (`depend_on={A,B}`, `or`-mode,
matching), the matcher returns `[A, B, C, C]` — `C` is enqueued once per
satisfied `or`-edge, evaluated twice in round two, and reported twice, so
the result is not duplicate-free. -/
theorem C1_counterexample :
    ¬ HasCycle [⟨"A", [], .all, [], .and, []⟩, ⟨"B", [], .all, [], .and, []⟩,
                ⟨"C", [], .all, ["A", "B"], .or, []⟩] ∧
    GroupFilter.matchNodes
      [⟨"A", [], .all, [], .and, []⟩, ⟨"B", [], .all, [], .and, []⟩,
       ⟨"C", [], .all, ["A", "B"], .or, []⟩] ⟨Option.some "r", []⟩ []
      = Option.some (["A", "B", "C", "C"], []) ∧
    ¬ (["A", "B", "C", "C"] : List String).Nodup := by
  refine ⟨?_, rfl, by decide⟩
  obtain ⟨rank, _, hrank⟩ := kahn_complete_rank
    [⟨"A", [], .all, [], .and, []⟩, ⟨"B", [], .all, [], .and, []⟩,
     ⟨"C", [], .all, ["A", "B"], .or, []⟩] (by decide) (by decide) (by decide)
  exact no_cycle_of_rank _ rank hrank

/-- Witness for the amended C1 at a concrete input: the three-group `or`-mode
graph itself — the matcher terminates with rounds `[[A, B], [C, C]]`. -/
theorem C1_witness :
    ∃ rs o, GroupFilter.matchRounds
        [⟨"A", [], .all, [], .and, []⟩, ⟨"B", [], .all, [], .and, []⟩,
         ⟨"C", [], .all, ["A", "B"], .or, []⟩] ⟨Option.some "r", []⟩ []
        = Option.some (rs, o) ∧
      GroupFilter.matchNodes
        [⟨"A", [], .all, [], .and, []⟩, ⟨"B", [], .all, [], .and, []⟩,
         ⟨"C", [], .all, ["A", "B"], .or, []⟩] ⟨Option.some "r", []⟩ []
        = Option.some (rs.join, o) ∧
      ∀ x ∈ rs.join, x ∈ nodeNames
        [⟨"A", [], .all, [], .and, []⟩, ⟨"B", [], .all, [], .and, []⟩,
         ⟨"C", [], .all, ["A", "B"], .or, []⟩] :=
  C1_amended
    [⟨"A", [], .all, [], .and, []⟩, ⟨"B", [], .all, [], .and, []⟩,
     ⟨"C", [], .all, ["A", "B"], .or, []⟩] ⟨Option.some "r", []⟩ []
    (by decide) (by decide)
    (by
      obtain ⟨rank, _, hrank⟩ := kahn_complete_rank
        [⟨"A", [], .all, [], .and, []⟩, ⟨"B", [], .all, [], .and, []⟩,
         ⟨"C", [], .all, ["A", "B"], .or, []⟩] (by decide) (by decide) (by decide)
      exact no_cycle_of_rank _ rank hrank)

/-- C5 fails as stated on the code: for an enabled normal-mode rule whose
group-filter graph is the cyclic pair `A ↔ B`, executing over a walk that
yields zero resources raises nothing — the rule returns an empty summary —
because the cycle check runs inside the per-resource loop, not at rule
start. -/
theorem C5_counterexample :
    Rule.execute
      ⟨true, ["L"],
       [.group ⟨"A", [], .all, ["B"], .and, []⟩,
        .group ⟨"B", [], .all, ["A"], .and, []⟩], .all,
       [.base ⟨"noop", fun r _ o => (.ok, r, o)⟩]⟩
      [] true [] = Except.ok ({}, []) := rfl

/-- C5 (amended): for an enabled normal-mode rule whose group-filter
dependency graph is cyclic, the fatal configuration error is raised at the
first walked resource, before any of that resource's filters or actions run
(the output sink is untouched when the error propagates); if the walker
yields no resources, the rule completes without error and with an empty
summary. -/
theorem C5_cyclic_error_on_first_resource (rule : Rule) (sim : Bool)
    (out : Output) (hn : (nodeNames rule.group_filters).Nodup)
    (hd : ∀ g ∈ rule.group_filters, g.depend_on.Nodup)
    (hcyc : HasCycle rule.group_filters)
    (hen : rule.enabled = true) (hloc : rule.locations ≠ []) :
    Rule.execute rule [] sim out = Except.ok ({}, out) ∧
    ∀ r rest, Rule.execute rule (r :: rest) sim out
      = Except.error ("Cyclic dependency detected in filters.", out) := by
  have hexec : ∀ walked, Rule.execute rule walked sim out
      = executeLoop rule sim walked ⟨[], {}, out⟩ := by
    intro walked
    unfold Rule.execute
    rw [if_neg (by rw [hen]; simp), if_neg hloc]
  have hgne : rule.group_filters ≠ [] := by
    rcases hcyc with ⟨v, l, hch, hclose⟩
    rcases hclose with ⟨_, g, hg, _⟩
    intro hnil
    rw [hnil] at hg
    simp at hg
  constructor
  · rw [hexec]
    rfl
  · intro r rest
    rw [hexec]
    have hskip : skippedBy r ([] : List String) = false := by
      unfold skippedBy
      cases r.path <;> rfl
    have hstep : processStep rule sim ⟨[], {}, out⟩ r
        = Except.error ("Cyclic dependency detected in filters.", out) := by
      unfold processStep
      rw [if_neg (by rw [hskip]; simp)]
      rw [if_neg (by simpa [List.isEmpty_iff] using hgne)]
      unfold group_filter_pipeline
      rw [is_cyclic_true_of_hasCycle rule.group_filters hn hd hcyc]
      rfl
    simp only [executeLoop, hstep]

/-- Witness for the amended C5 at a concrete input: the cyclic two-group rule
aborts with the cyclic-dependency error at its single walked resource, with
nothing reported beforehand. -/
theorem C5_witness :
    Rule.execute
      ⟨true, ["L"],
       [.group ⟨"A", [], .all, ["B"], .and, []⟩,
        .group ⟨"B", [], .all, ["A"], .and, []⟩], .all,
       [.base ⟨"noop", fun r _ o => (.ok, r, o)⟩]⟩
      [⟨Option.some "r1", []⟩] true []
      = Except.error ("Cyclic dependency detected in filters.", []) :=
  (C5_cyclic_error_on_first_resource
      ⟨true, ["L"],
       [.group ⟨"A", [], .all, ["B"], .and, []⟩,
        .group ⟨"B", [], .all, ["A"], .and, []⟩], .all,
       [.base ⟨"noop", fun r _ o => (.ok, r, o)⟩]⟩
      true [] (by decide) (by decide)
      ⟨"A", ["B"], List.Chain.cons (by decide) List.Chain.nil, by decide⟩
      rfl (by simp)).2
    ⟨Option.some "r1", []⟩ []

end Organize
